import Mathlib

/-! # ByteRead: reading numerics from a file and dumping it as hex + ASCII

A shallow embedding of `src/ByteRead_debug.cpp` (`printLine`, `getNumeric`,
`binaryDumpAsASCII`) together with the properties its specification states.

Modelling conventions
* A `FILE` is the byte content of a regular file plus the position indicator.
  `fseek` to a negative position fails and leaves the indicator where it was;
  `fread` of one byte at or past end-of-file reads nothing and leaves the
  destination untouched.
* A C array reached through a pointer (`uint8_t* buffer`) is a function
  `Nat → UInt8`; a store is `writeAt`.
* `unsigned long` is a natural number below `2 ^ ulongBits`; the width
  `ulongBits` is a parameter (the C standard only promises `32 ≤ ulongBits`).
* Standard output is the list of characters written.
-/

namespace ByteRead

/-! ## Constants -/

def LITTLE : Int := 0
def BIG : Int := 1
def SIGNED : Int := 0
def UNSIGNED : Int := 1
/-- Number of bytes to read per line (`binaryDumpAsASCII`). -/
def LINESIZE : Nat := 16

/-! ## The file handle -/

/-- An open stream on a regular file: its bytes and the position indicator. -/
structure FILE where
  data : List UInt8
  pos : Nat
deriving DecidableEq

/-- The `whence` argument of `fseek`. -/
inductive Whence where
  | SEEK_SET
  | SEEK_CUR
  | SEEK_END
deriving DecidableEq

/-- A C array of bytes, addressed by index. -/
abbrev Buffer := Nat → UInt8

/-- The store `buffer[i] = b`. -/
def writeAt (buffer : Buffer) (i : Nat) (b : UInt8) : Buffer :=
  fun j => if j = i then b else buffer j

/-- The call `fseek(f, offset, whence)`: the target is computed from the start, the
current position or the end of the file; a negative target makes the call
fail, and the position indicator is then unchanged. Seeking past the end is
allowed. The code never looks at the return value. -/
def fseek (f : FILE) (offset : Int) (whence : Whence) : FILE :=
  let base : Int :=
    match whence with
    | Whence.SEEK_SET => 0
    | Whence.SEEK_CUR => (f.pos : Int)
    | Whence.SEEK_END => (f.data.length : Int)
  let target : Int := base + offset
  if 0 ≤ target then { f with pos := target.toNat } else f

/-- The call `fread(&buffer[i], 1, 1, f)`: when a byte is available it is stored in
`buffer[i]`, the indicator advances by one and the count `1` is returned;
at end-of-file nothing is stored and the count is `0`. -/
def fread (buffer : Buffer) (i : Nat) (f : FILE) : Nat × Buffer × FILE :=
  match f.data[f.pos]? with
  | some b => (1, writeAt buffer i b, { f with pos := f.pos + 1 })
  | none => (0, buffer, f)

/-! ## getNumeric -/

/-- One pass of the body of the `for` loop in the `LITTLE` branch (lines 77-81). -/
def littleStep (s : Buffer × FILE) (i : Nat) : Buffer × FILE :=
  let f1 := fseek s.2 (-1) Whence.SEEK_CUR
  let r := fread s.1 i f1
  (r.2.1, fseek r.2.2 (-1) Whence.SEEK_CUR)

/-- One pass of the body of the `for` loop in the `BIG` branch (lines 84-86). -/
def bigStep (s : Buffer × FILE) (i : Nat) : Buffer × FILE :=
  let r := fread s.1 i s.2
  (r.2.1, r.2.2)

/-- Lines 74-87 of `getNumeric`: position the stream and fill `buffer`. -/
def fetch (f : FILE) (offset : Int) (size : Nat) (endian : Int) (buffer : Buffer) :
    Buffer × FILE :=
  if endian = LITTLE then
    let f0 := fseek f (offset * -1) Whence.SEEK_END
    (List.range size).foldl littleStep (buffer, f0)
  else if endian = BIG then
    let f0 := fseek f offset Whence.SEEK_SET
    (List.range size).foldl bigStep (buffer, f0)
  else (buffer, f)

/-- One pass of the assembling loop (lines 90-93); the state is `(ret, shiftBy)`.
The shift is done in `unsigned long`, so its result is cut to `ulongBits` bits. -/
def assembleStep (ulongBits : Nat) (buffer : Buffer) (s : Nat × Int) (i : Nat) : Nat × Int :=
  (s.1 ||| (((buffer i).toNat <<< s.2.toNat) % 2 ^ ulongBits), s.2 - 8)

/-- Lines 89-93 of `getNumeric`: `ret` after the assembling loop. -/
def assemble (ulongBits : Nat) (buffer : Buffer) (size : Nat) : Nat :=
  let sizeInBits : Int := (size : Int) * 8
  let shiftBy : Int := sizeInBits - 8
  ((List.range size).foldl (assembleStep ulongBits buffer) (0, shiftBy)).1

/-- Lines 95-104 of `getNumeric`: the mask, subtract, complement sequence. -/
def signAdjust (ulongBits : Nat) (size : Nat) (type : Int) (ret : Nat) : Nat :=
  let sizeInBits : Int := (size : Int) * 8
  let mask : Nat := 0xFFFFFFFF % 2 ^ ulongBits
  let sizeOfULong : Int := 32
  if type = SIGNED then
    if ret >>> (sizeInBits - 1).toNat = 1 then
      let mask := mask >>> (sizeOfULong - sizeInBits).toNat
      let ret := (mask + 2 ^ ulongBits - ret) % 2 ^ ulongBits
      let ret := 2 ^ ulongBits - 1 - ret
      ret
    else ret
  else ret

/-- The function `getNumeric(f, offset, size, type, endian)`: the returned
`unsigned long` and the stream as the call leaves it. -/
def getNumeric (ulongBits : Nat) (f : FILE) (offset : Int) (size : Nat) (type endian : Int) :
    Nat × FILE :=
  let buffer : Buffer := fun _ => 0
  let r := fetch f offset size endian buffer
  let ret := assemble ulongBits r.1 size
  (signAdjust ulongBits size type ret, r.2)

/-! ## printLine -/

/-- One uppercase hexadecimal digit, as `%X` writes it (`d < 16`). -/
def hexDigit (d : Nat) : Char :=
  if d < 10 then Char.ofNat (48 + d) else Char.ofNat (55 + d)

/-- The call `printf("%02X ", b)`: two uppercase hexadecimal digits, zero padded,
and a space. -/
def printfHex (b : UInt8) : List Char :=
  [hexDigit (b.toNat / 16), hexDigit (b.toNat % 16), ' ']

/-- Lines 51-55: what the ASCII loop writes for one byte. -/
def printfAscii (b : UInt8) : List Char :=
  if b < 32 ∨ b > 126 then [' '] else [Char.ofNat b.toNat]

/-- The function `printLine(buffer, size)`: the characters it writes to standard output. -/
def printLine (buffer : Buffer) (size : Nat) : List Char :=
  (List.range size).flatMap (fun i => printfHex (buffer i))
    ++ (if size ≠ LINESIZE then
          (List.range' size (LINESIZE - size)).flatMap (fun _ => [' ', ' ', ' '])
        else [])
    ++ ['\t']
    ++ (List.range size).flatMap (fun i => printfAscii (buffer i))
    ++ ['\n']

/-! ## binaryDumpAsASCII -/

/-- The state of `binaryDumpAsASCII`: its locals, the stream, the text written to
standard output so far (`out`) and, for each call of `printLine` made so far,
the window `buffer[0 .. size-1]` it was given (`calls`, oldest first). -/
structure DumpState where
  fin : FILE
  buffer : Buffer
  linePos : Nat
  out : List Char
  calls : List (List UInt8)

/-- The call `printLine(buffer, size)` made from `binaryDumpAsASCII`. -/
def callPrintLine (s : DumpState) (buffer : Buffer) (size : Nat) : DumpState :=
  { s with out := s.out ++ printLine buffer size,
           calls := s.calls ++ [(List.range size).map buffer] }

/-- The `while` loop of lines 119-126. Each unit of fuel pays for one evaluation
of the loop condition; `none` means the fuel ran out before the loop ended. -/
def dumpLoop : Nat → DumpState → Option DumpState
  | 0, _ => none
  | fuel + 1, s =>
    let r := fread s.buffer s.linePos s.fin
    let s1 : DumpState := { s with buffer := r.2.1, fin := r.2.2 }
    if r.1 = 1 then
      if s1.linePos = LINESIZE - 1 then
        dumpLoop fuel { callPrintLine s1 s1.buffer LINESIZE with linePos := 0 }
      else
        dumpLoop fuel { s1 with linePos := s1.linePos + 1 }
    else some s1

/-- The function `binaryDumpAsASCII(fin)`. `buffer` is the content the uninitialised
local array happens to have.
The result is the final state, or `none` when the fuel did not suffice. -/
def binaryDumpAsASCII (fuel : Nat) (fin : FILE) (buffer : Buffer) : Option DumpState :=
  let fin := fseek fin 0 Whence.SEEK_SET
  match dumpLoop fuel { fin := fin, buffer := buffer, linePos := 0, out := [], calls := [] } with
  | none => none
  | some s =>
    let r := fread s.buffer s.linePos s.fin
    let s1 : DumpState := { s with buffer := r.2.1, fin := r.2.2 }
    if r.1 ≠ 1 then some (callPrintLine s1 s1.buffer s1.linePos) else some s1

/-! ## Vocabulary of the specification -/

/-- An `unsigned long` bit pattern read as a signed integer of the same width
(what `printf("%ld", ...)` in `main` does with the returned value). -/
def toSigned (ulongBits : Nat) (x : Nat) : Int :=
  if x < 2 ^ (ulongBits - 1) then (x : Int) else (x : Int) - 2 ^ ulongBits

/-- Byte `i` of the file as a number (`0` outside the file). -/
def byteAt (f : FILE) (i : Nat) : Nat := (f.data.getD i 0).toNat

/-- Big-endian encoding of `v` in `w` bytes: most significant byte first. -/
def encodeBig (w v : Nat) : List Nat :=
  (List.range w).map (fun i => v / 256 ^ (w - 1 - i) % 256)

/-- Little-endian encoding of `v` in `w` bytes: least significant byte first. -/
def encodeLittle (w v : Nat) : List Nat :=
  (List.range w).map (fun i => v / 256 ^ i % 256)

/-- The buffer that holds the bytes `data[start], data[start + 1], ...` of a file. -/
def fileWindow (data : List UInt8) (start : Nat) : Buffer := fun i => data.getD (start + i) 0

/-- A 20-byte file, `A B C ...`, with the position indicator somewhere inside. -/
def file20 : FILE := ⟨(List.range 20).map (fun i => UInt8.ofNat (65 + i)), 7⟩

/-- A 16-byte file. -/
def file16 : FILE := ⟨(List.range 16).map (fun i => UInt8.ofNat (65 + i)), 0⟩

/-- The empty file. -/
def file0 : FILE := ⟨[], 0⟩

/-- An 18-byte file of the bytes `0, 1, ..., 17`: it holds a tab (9), a line feed (10)
and a carriage return (13). -/
def fileCtl : FILE := ⟨(List.range 18).map (fun i => UInt8.ofNat i), 0⟩

/-- The character the ASCII column shows for a byte: the byte itself when it is
printable (`32 ≤ b ≤ 126`), a space otherwise. -/
def asciiChar (b : UInt8) : Char :=
  if 32 ≤ b.toNat ∧ b.toNat ≤ 126 then Char.ofNat b.toNat else ' '

/-- The value of an uppercase hexadecimal digit. -/
def hexVal (c : Char) : Option Nat :=
  if 48 ≤ c.toNat ∧ c.toNat ≤ 57 then some (c.toNat - 48)
  else if 65 ≤ c.toNat ∧ c.toNat ≤ 70 then some (c.toNat - 55)
  else none

/-! ## The stream primitives -/

theorem fread_avail (buffer : Buffer) (i : Nat) (F : List UInt8) (p : Nat) (h : p < F.length) :
    fread buffer i ⟨F, p⟩ = (1, writeAt buffer i (F.getD p 0), ⟨F, p + 1⟩) := by
  simp [fread, List.getElem?_eq_getElem h, List.getD_eq_getElem _ _ h]

theorem fread_eof (buffer : Buffer) (i : Nat) (F : List UInt8) (p : Nat) (h : F.length ≤ p) :
    fread buffer i ⟨F, p⟩ = (0, buffer, ⟨F, p⟩) := by
  simp [fread, List.getElem?_eq_none h]

theorem fseek_set (F : List UInt8) (p o : Nat) :
    fseek ⟨F, p⟩ (o : Int) Whence.SEEK_SET = ⟨F, o⟩ := by
  simp [fseek]

theorem fseek_end (F : List UInt8) (p o : Nat) (h : o ≤ F.length) :
    fseek ⟨F, p⟩ ((o : Int) * -1) Whence.SEEK_END = ⟨F, F.length - o⟩ := by
  have h1 : (0 : Int) ≤ (F.length : Int) + (o : Int) * -1 := by omega
  have h2 : ((F.length : Int) + (o : Int) * -1).toNat = F.length - o := by omega
  simp only [fseek, h1, h2, if_true]

theorem fseek_back (F : List UInt8) (p : Nat) (h : 0 < p) :
    fseek ⟨F, p⟩ (-1) Whence.SEEK_CUR = ⟨F, p - 1⟩ := by
  have h1 : (0 : Int) ≤ (p : Int) + -1 := by omega
  have h2 : ((p : Int) + -1).toNat = p - 1 := by omega
  simp only [fseek, h1, h2, if_true]

/-! ## Filling the buffer -/

theorem bigStep_avail (buffer : Buffer) (F : List UInt8) (p i : Nat) (h : p < F.length) :
    bigStep (buffer, ⟨F, p⟩) i = (writeAt buffer i (F.getD p 0), ⟨F, p + 1⟩) := by
  simp [bigStep, fread_avail buffer i F p h]

theorem littleStep_avail (buffer : Buffer) (F : List UInt8) (p i : Nat) (h0 : 0 < p)
    (h : p ≤ F.length) :
    littleStep (buffer, ⟨F, p⟩) i = (writeAt buffer i (F.getD (p - 1) 0), ⟨F, p - 1⟩) := by
  have hp : p - 1 < F.length := by omega
  have hs : p - 1 + 1 = p := by omega
  simp [littleStep, fseek_back F p h0, fread_avail buffer i F (p - 1) hp, hs]

/-- The `BIG` loop, run `k` times inside the file, stores bytes `o, o+1, ...` at
indices `0, 1, ...` and leaves the indicator at `o + k`. -/
theorem foldl_bigStep (buffer : Buffer) (F : List UInt8) (o : Nat) :
    ∀ k, o + k ≤ F.length →
      (List.range k).foldl bigStep (buffer, ⟨F, o⟩)
        = (fun j => if j < k then F.getD (o + j) 0 else buffer j, ⟨F, o + k⟩) := by
  intro k
  induction k with
  | zero => intro _; simp
  | succ k ih =>
    intro h
    rw [List.range_succ, List.foldl_append, ih (by omega)]
    simp only [List.foldl_cons, List.foldl_nil]
    rw [bigStep_avail _ F (o + k) k (by omega)]
    refine Prod.ext ?_ rfl
    funext j
    simp only [writeAt]
    by_cases hj : j = k
    · subst hj; simp
    · by_cases hlt : j < k
      · have : j < k + 1 := by omega
        simp [hj, hlt, this]
      · have : ¬ j < k + 1 := by omega
        simp [hj, hlt, this]

/-- The `LITTLE` loop, run `k` times from position `p` with `k ≤ p`, stores bytes
`p-1, p-2, ...` at indices `0, 1, ...` and leaves the indicator at `p - k`. -/
theorem foldl_littleStep (buffer : Buffer) (F : List UInt8) (p : Nat) (hp : p ≤ F.length) :
    ∀ k, k ≤ p →
      (List.range k).foldl littleStep (buffer, ⟨F, p⟩)
        = (fun j => if j < k then F.getD (p - 1 - j) 0 else buffer j, ⟨F, p - k⟩) := by
  intro k
  induction k with
  | zero => intro _; simp
  | succ k ih =>
    intro h
    rw [List.range_succ, List.foldl_append, ih (by omega)]
    simp only [List.foldl_cons, List.foldl_nil]
    rw [littleStep_avail _ F (p - k) k (by omega) (by omega)]
    have e1 : p - k - 1 = p - (k + 1) := by omega
    have e2 : p - 1 - k = p - (k + 1) := by omega
    refine Prod.ext ?_ (by simp [e1])
    funext j
    simp only [writeAt]
    by_cases hj : j = k
    · subst hj; simp [e1, e2]
    · by_cases hlt : j < k
      · have : j < k + 1 := by omega
        simp [hj, hlt, this]
      · have : ¬ j < k + 1 := by omega
        simp [hj, hlt, this]

theorem fetch_big (f : FILE) (o w : Nat) (buffer : Buffer) (h : o + w ≤ f.data.length) :
    fetch f (o : Int) w BIG buffer
      = (fun j => if j < w then f.data.getD (o + j) 0 else buffer j, ⟨f.data, o + w⟩) := by
  obtain ⟨F, p⟩ := f
  have hne : ¬ (BIG = LITTLE) := by decide
  simp only [fetch, hne, if_false, if_true, fseek_set]
  exact foldl_bigStep buffer F o w h

theorem fetch_little (f : FILE) (o w : Nat) (buffer : Buffer) (h : o + w ≤ f.data.length) :
    fetch f (o : Int) w LITTLE buffer
      = (fun j => if j < w then f.data.getD (f.data.length - o - 1 - j) 0 else buffer j,
          ⟨f.data, f.data.length - o - w⟩) := by
  obtain ⟨F, p⟩ := f
  simp only [fetch, if_true]
  rw [fseek_end F p o (by simp at h; omega)]
  exact foldl_littleStep buffer F (F.length - o) (by omega) w (by simp at h; omega)

/-! ## Assembling the value -/

theorem pow256 (n : Nat) : (256 : Nat) ^ n = 2 ^ (8 * n) := by
  rw [pow_mul]; norm_num

theorem lor_disjoint (S t i : Nat) (hS : 2 ^ i ∣ S) (ht : t < 2 ^ i) : S ||| t = S + t := by
  obtain ⟨a, rfl⟩ := hS
  exact (Nat.mul_add_lt_is_or ht a).symm

theorem byte_lt (b : UInt8) : b.toNat < 256 := by
  have := UInt8.toNat_lt b
  simpa using this

theorem partial_dvd (b : Nat → Nat) (w k : Nat) :
    2 ^ (8 * (w - k)) ∣ ∑ i in Finset.range k, b i * 256 ^ (w - 1 - i) := by
  apply Finset.dvd_sum
  intro i hi
  have hi : i < k := Finset.mem_range.mp hi
  rw [pow256]
  exact Dvd.dvd.mul_left (pow_dvd_pow 2 (by omega)) _

/-- After `k` passes the assembling loop holds the `k` most significant bytes in
place, and the shift has gone down by `8 * k`. -/
theorem foldl_assembleStep (W : Nat) (buffer : Buffer) (w : Nat) (hW : 8 * w ≤ W) :
    ∀ k, k ≤ w →
      (List.range k).foldl (assembleStep W buffer) (0, (w : Int) * 8 - 8)
        = (∑ i in Finset.range k, (buffer i).toNat * 256 ^ (w - 1 - i),
            (w : Int) * 8 - 8 - 8 * (k : Int)) := by
  intro k
  induction k with
  | zero => intro _; simp
  | succ k ih =>
    intro h
    rw [List.range_succ, List.foldl_append, ih (by omega)]
    simp only [List.foldl_cons, List.foldl_nil, assembleStep]
    have hsh : ((w : Int) * 8 - 8 - 8 * (k : Int)).toNat = 8 * (w - 1 - k) := by omega
    have hlt : (buffer k).toNat * 2 ^ (8 * (w - 1 - k)) < 2 ^ (8 * (w - k)) := by
      have e : 8 * (w - k) = 8 + 8 * (w - 1 - k) := by omega
      rw [e, pow_add]
      exact Nat.mul_lt_mul_of_pos_right (by simpa using byte_lt (buffer k)) (by positivity)
    have hle : 2 ^ (8 * (w - k)) ≤ 2 ^ W := Nat.pow_le_pow_right (by norm_num) (by omega)
    refine Prod.ext ?_ (by push_cast; ring)
    simp only [hsh, Nat.shiftLeft_eq]
    rw [Nat.mod_eq_of_lt (lt_of_lt_of_le hlt hle),
      lor_disjoint _ _ (8 * (w - k)) (partial_dvd (fun i => (buffer i).toNat) w k) hlt,
      Finset.sum_range_succ, pow256 (w - 1 - k)]

theorem assemble_eq (W : Nat) (buffer : Buffer) (w : Nat) (hW : 8 * w ≤ W) :
    assemble W buffer w = ∑ i in Finset.range w, (buffer i).toNat * 256 ^ (w - 1 - i) := by
  simp only [assemble]
  rw [foldl_assembleStep W buffer w hW w (le_refl w)]

/-- The big-endian value of `w` bytes is below `256 ^ w`. -/
theorem sum_lt (b : Nat → Nat) (hb : ∀ i, b i < 256) (w : Nat) :
    ∀ k, k ≤ w → (∑ i in Finset.range k, b i * 256 ^ (w - 1 - i)) + 256 ^ (w - k) ≤ 256 ^ w := by
  intro k
  induction k with
  | zero => intro _; simp
  | succ k ih =>
    intro h
    have h1 := ih (by omega)
    rw [Finset.sum_range_succ]
    have e : w - k = (w - 1 - k) + 1 := by omega
    have e2 : w - (k + 1) = w - 1 - k := by omega
    rw [e, pow_succ] at h1
    rw [e2]
    have := hb k
    have hp : 0 < 256 ^ (w - 1 - k) := by positivity
    nlinarith

theorem assemble_lt (W : Nat) (buffer : Buffer) (w : Nat) (hW : 8 * w ≤ W) :
    assemble W buffer w < 2 ^ (8 * w) := by
  rw [assemble_eq W buffer w hW, ← pow256]
  have := sum_lt (fun i => (buffer i).toNat) (fun i => byte_lt (buffer i)) w w (le_refl w)
  simp at this
  omega

/-! ## The sign step -/

theorem sub_wrap (P m u : Nat) (hu : u ≤ m) (hm : m < P) : (m + P - u) % P = m - u := by
  have e : m + P - u = (m - u) + P := by omega
  rw [e, Nat.add_mod_right, Nat.mod_eq_of_lt (by omega)]

theorem signAdjust_other (W w : Nat) (type : Int) (u : Nat) (ht : type ≠ SIGNED) :
    signAdjust W w type u = u := by
  simp [signAdjust, ht]

/-- The bit pattern the sign step leaves in the `unsigned long`. -/
theorem signAdjust_signed (W w u : Nat) (hw : w = 1 ∨ w = 2 ∨ w = 4) (hW : 32 ≤ W)
    (hu : u < 2 ^ (8 * w)) :
    signAdjust W w SIGNED u
      = if u < 2 ^ (8 * w - 1) then u else 2 ^ W - 2 ^ (8 * w) + u := by
  have hP : 2 ^ 32 ≤ 2 ^ W := Nat.pow_le_pow_right (by norm_num) hW
  have hmask : 0xFFFFFFFF % 2 ^ W = 0xFFFFFFFF := Nat.mod_eq_of_lt (by omega)
  simp only [signAdjust, hmask, if_true]
  generalize 2 ^ W = P at hP ⊢
  rcases hw with rfl | rfl | rfl
  · have h1 : (((1 : Nat) : Int) * 8 - 1).toNat = 7 := by decide
    have h2 : ((32 : Int) - ((1 : Nat) : Int) * 8).toNat = 24 := by decide
    have h3 : (4294967295 : Nat) >>> 24 = 255 := by decide
    simp only [h1, h2, h3, Nat.shiftRight_eq_div_pow]
    norm_num at hu ⊢
    by_cases hs : u < 128
    · have : ¬ (u / 128 = 1) := by omega
      simp [this, hs]
    · have : u / 128 = 1 := by omega
      rw [if_pos this, if_neg hs, sub_wrap P 255 u (by omega) (by omega)]
      omega
  · have h1 : (((2 : Nat) : Int) * 8 - 1).toNat = 15 := by decide
    have h2 : ((32 : Int) - ((2 : Nat) : Int) * 8).toNat = 16 := by decide
    have h3 : (4294967295 : Nat) >>> 16 = 65535 := by decide
    simp only [h1, h2, h3, Nat.shiftRight_eq_div_pow]
    norm_num at hu ⊢
    by_cases hs : u < 32768
    · have : ¬ (u / 32768 = 1) := by omega
      simp [this, hs]
    · have : u / 32768 = 1 := by omega
      rw [if_pos this, if_neg hs, sub_wrap P 65535 u (by omega) (by omega)]
      omega
  · have h1 : (((4 : Nat) : Int) * 8 - 1).toNat = 31 := by decide
    have h2 : ((32 : Int) - ((4 : Nat) : Int) * 8).toNat = 0 := by decide
    have h3 : (4294967295 : Nat) >>> 0 = 4294967295 := by decide
    simp only [h1, h2, h3, Nat.shiftRight_eq_div_pow]
    norm_num at hu ⊢
    by_cases hs : u < 2147483648
    · have : ¬ (u / 2147483648 = 1) := by omega
      simp [this, hs]
    · have : u / 2147483648 = 1 := by omega
      rw [if_pos this, if_neg hs, sub_wrap P 4294967295 u (by omega) (by omega)]
      omega

/-- Read as a signed integer, the result of the sign step is the two's-complement
value of the `8 * w`-bit pattern `u`. -/
theorem toSigned_signAdjust (W w u : Nat) (hw : w = 1 ∨ w = 2 ∨ w = 4) (hW : 32 ≤ W)
    (hu : u < 2 ^ (8 * w)) :
    toSigned W (signAdjust W w SIGNED u)
      = if u < 2 ^ (8 * w - 1) then (u : Int) else (u : Int) - 2 ^ (8 * w) := by
  rw [signAdjust_signed W w u hw hW hu]
  have hw8 : 8 * w ≤ 32 := by omega
  have hpos : 1 ≤ 8 * w := by omega
  have h8 : 8 * w - 1 ≤ W - 1 := by omega
  have hle : 2 ^ (8 * w - 1) ≤ 2 ^ (W - 1) := Nat.pow_le_pow_right (by norm_num) h8
  have hW2 : 2 ^ W = 2 * 2 ^ (W - 1) := by
    rw [← pow_succ']; congr 1; omega
  have hw2 : 2 ^ (8 * w) = 2 * 2 ^ (8 * w - 1) := by
    rw [← pow_succ']; congr 1; omega
  by_cases hs : u < 2 ^ (8 * w - 1)
  · have : u < 2 ^ (W - 1) := by omega
    simp [toSigned, hs, this]
  · have hn : ¬ (2 ^ W - 2 ^ (8 * w) + u < 2 ^ (W - 1)) := by omega
    simp only [toSigned, hs, hn, if_false]
    have hc : ((2 ^ W - 2 ^ (8 * w) + u : Nat) : Int)
        = (2 : Int) ^ W - (2 : Int) ^ (8 * w) + (u : Int) := by
      have : 2 ^ (8 * w) ≤ 2 ^ W := by omega
      push_cast [Nat.cast_sub this]
      ring
    rw [hc]; ring

/-- Whatever the signedness, the low `8 * w` bits of the result are the assembled value. -/
theorem signAdjust_mod (W w u : Nat) (type : Int) (hw : w = 1 ∨ w = 2 ∨ w = 4) (hW : 32 ≤ W)
    (hu : u < 2 ^ (8 * w)) :
    signAdjust W w type u % 2 ^ (8 * w) = u := by
  by_cases ht : type = SIGNED
  · subst ht
    rw [signAdjust_signed W w u hw hW hu]
    by_cases hs : u < 2 ^ (8 * w - 1)
    · simp [hs, Nat.mod_eq_of_lt hu]
    · simp only [hs, if_false]
      have hd : 2 ^ (8 * w) ∣ 2 ^ W - 2 ^ (8 * w) :=
        Nat.dvd_sub' (pow_dvd_pow 2 (by omega)) (dvd_refl _)
      obtain ⟨c, hc⟩ := hd
      rw [hc, Nat.mul_add_mod, Nat.mod_eq_of_lt hu]
  · rw [signAdjust_other W w type u ht, Nat.mod_eq_of_lt hu]

/-! ## The value `getNumeric` returns -/

theorem getNumeric_fst (W : Nat) (f : FILE) (off : Int) (w : Nat) (t e : Int) :
    (getNumeric W f off w t e).1
      = signAdjust W w t (assemble W (fetch f off w e (fun _ => 0)).1 w) := rfl

theorem assembled_big (W : Nat) (f : FILE) (o w : Nat) (hW : 8 * w ≤ W)
    (h : o + w ≤ f.data.length) :
    assemble W (fetch f (o : Int) w BIG (fun _ => 0)).1 w
      = ∑ i in Finset.range w, byteAt f (o + i) * 256 ^ (w - 1 - i) := by
  rw [fetch_big f o w _ h, assemble_eq W _ w hW]
  apply Finset.sum_congr rfl
  intro i hi
  have hi : i < w := Finset.mem_range.mp hi
  simp [byteAt, hi]

theorem assembled_little (W : Nat) (f : FILE) (o w : Nat) (hW : 8 * w ≤ W)
    (h : o + w ≤ f.data.length) :
    assemble W (fetch f (o : Int) w LITTLE (fun _ => 0)).1 w
      = ∑ i in Finset.range w, byteAt f (f.data.length - o - 1 - i) * 256 ^ (w - 1 - i) := by
  rw [fetch_little f o w _ h, assemble_eq W _ w hW]
  apply Finset.sum_congr rfl
  intro i hi
  have hi : i < w := Finset.mem_range.mp hi
  simp [byteAt, hi]

theorem byteAt_lt (f : FILE) (i : Nat) : byteAt f i < 256 := byte_lt _

theorem take_drop_bytes (F : List UInt8) (s w : Nat) (h : s + w ≤ F.length) :
    ((F.drop s).take w).map UInt8.toNat
      = (List.range w).map (fun i => (F.getD (s + i) 0).toNat) := by
  apply List.ext_getElem
  · simp; omega
  · intro n h1 h2
    simp at h1 h2
    have : s + n < F.length := by omega
    simp [List.getElem?_eq_getElem this]

/-- Cutting a big-endian value back into its bytes, most significant first. -/
theorem digits_big (w : Nat) (b : Nat → Nat) (hb : ∀ i, b i < 256)
    (hw : w = 1 ∨ w = 2 ∨ w = 4) :
    encodeBig w (∑ j in Finset.range w, b j * 256 ^ (w - 1 - j)) = (List.range w).map b := by
  have h0 := hb 0
  have h1 := hb 1
  have h2 := hb 2
  have h3 := hb 3
  rcases hw with rfl | rfl | rfl
  · simp [encodeBig, Finset.sum_range_succ, List.range_succ]
    omega
  · simp [encodeBig, Finset.sum_range_succ, List.range_succ]
    omega
  · simp [encodeBig, Finset.sum_range_succ, List.range_succ]
    omega

/-- Cutting a value back into its bytes, least significant first, yields the
bytes of the big-endian sum in reverse order. -/
theorem digits_little (w : Nat) (b : Nat → Nat) (hb : ∀ i, b i < 256)
    (hw : w = 1 ∨ w = 2 ∨ w = 4) :
    encodeLittle w (∑ j in Finset.range w, b j * 256 ^ (w - 1 - j))
      = (List.range w).map (fun i => b (w - 1 - i)) := by
  have h0 := hb 0
  have h1 := hb 1
  have h2 := hb 2
  have h3 := hb 3
  rcases hw with rfl | rfl | rfl
  · simp [encodeLittle, Finset.sum_range_succ, List.range_succ]
    omega
  · simp [encodeLittle, Finset.sum_range_succ, List.range_succ]
    omega
  · simp [encodeLittle, Finset.sum_range_succ, List.range_succ]
    omega

/-! ## Claims about `getNumeric` -/

/-- C1. Round trip: inside the file, for widths 1, 2 and 4 and either signedness,
the returned value taken modulo `2 ^ (8 * w)` and encoded again in `w` bytes
gives back the bytes addressed: big-endian, most significant byte first, the
bytes at `o .. o + w - 1`; little-endian, least significant byte first, the
`w` bytes that end just before position `L - o`. -/
theorem getNumeric_roundtrip (W : Nat) (f : FILE) (o w : Nat) (t : Int) (hW : 32 ≤ W)
    (hw : w = 1 ∨ w = 2 ∨ w = 4) (h : o + w ≤ f.data.length) :
    encodeBig w ((getNumeric W f (o : Int) w t BIG).1 % 2 ^ (8 * w))
        = ((f.data.drop o).take w).map UInt8.toNat
      ∧ encodeLittle w ((getNumeric W f (o : Int) w t LITTLE).1 % 2 ^ (8 * w))
        = ((f.data.drop (f.data.length - o - w)).take w).map UInt8.toNat := by
  have hW8 : 8 * w ≤ W := by omega
  constructor
  · rw [getNumeric_fst, signAdjust_mod W w _ t hw hW (assemble_lt W _ w hW8),
      assembled_big W f o w hW8 h, take_drop_bytes f.data o w h]
    exact digits_big w (fun i => byteAt f (o + i)) (fun i => byteAt_lt f _) hw
  · rw [getNumeric_fst, signAdjust_mod W w _ t hw hW (assemble_lt W _ w hW8),
      assembled_little W f o w hW8 h, take_drop_bytes f.data _ w (by omega),
      digits_little w (fun i => byteAt f (f.data.length - o - 1 - i))
        (fun i => byteAt_lt f _) hw]
    apply List.map_congr_left
    intro i hi
    have hi : i < w := List.mem_range.mp hi
    have e : f.data.length - o - 1 - (w - 1 - i) = f.data.length - o - w + i := by omega
    simp [byteAt, e]

theorem getNumeric_roundtrip_witness :
    (32 ≤ 32 ∧ ((2 : Nat) = 1 ∨ (2 : Nat) = 2 ∨ (2 : Nat) = 4)
        ∧ 1 + 2 ≤ (FILE.mk [0x11, 0x22, 0x33, 0x44, 0x55] 0).data.length)
      ∧ (encodeBig 2 ((getNumeric 32 ⟨[0x11, 0x22, 0x33, 0x44, 0x55], 0⟩
            ((1 : Nat) : Int) 2 SIGNED BIG).1 % 2 ^ (8 * 2))
          = (((FILE.mk [0x11, 0x22, 0x33, 0x44, 0x55] 0).data.drop 1).take 2).map UInt8.toNat
        ∧ encodeLittle 2 ((getNumeric 32 ⟨[0x11, 0x22, 0x33, 0x44, 0x55], 0⟩
            ((1 : Nat) : Int) 2 SIGNED LITTLE).1 % 2 ^ (8 * 2))
          = (((FILE.mk [0x11, 0x22, 0x33, 0x44, 0x55] 0).data.drop
              ((FILE.mk [0x11, 0x22, 0x33, 0x44, 0x55] 0).data.length - 1 - 2)).take 2).map
              UInt8.toNat) :=
  ⟨by decide, getNumeric_roundtrip 32 ⟨[0x11, 0x22, 0x33, 0x44, 0x55], 0⟩ 1 2 SIGNED
    (by decide) (by decide) (by decide)⟩

/-- C2. Big-endian unsigned decode: inside the file, for widths 1, 2 and 4,
`getNumeric(f, o, w, UNSIGNED, BIG)` is the sum over `i < w` of
`F[o + i] * 256 ^ (w - 1 - i)`, the offset being counted from the start of the file
(whatever the position indicator was before the call). -/
theorem getNumeric_big_unsigned (W : Nat) (f : FILE) (o w : Nat) (hW : 32 ≤ W)
    (hw : w = 1 ∨ w = 2 ∨ w = 4) (h : o + w ≤ f.data.length) :
    (getNumeric W f (o : Int) w UNSIGNED BIG).1
      = ∑ i in Finset.range w, byteAt f (o + i) * 256 ^ (w - 1 - i) := by
  rw [getNumeric_fst, signAdjust_other W w UNSIGNED _ (by decide),
    assembled_big W f o w (by omega) h]

/-- The two examples of the specification: bytes `00 00 00 01` at width 4 give `1`,
byte `80` at width 1 gives `128`. -/
theorem getNumeric_big_unsigned_witness :
    ((getNumeric 64 ⟨[0x00, 0x00, 0x00, 0x01], 0⟩ ((0 : Nat) : Int) 4 UNSIGNED BIG).1
        = ∑ i in Finset.range 4, byteAt ⟨[0x00, 0x00, 0x00, 0x01], 0⟩ (0 + i) * 256 ^ (4 - 1 - i)
      ∧ (∑ i in Finset.range 4,
          byteAt ⟨[0x00, 0x00, 0x00, 0x01], 0⟩ (0 + i) * 256 ^ (4 - 1 - i)) = 1)
    ∧ ((getNumeric 64 ⟨[0x80], 0⟩ ((0 : Nat) : Int) 1 UNSIGNED BIG).1
        = ∑ i in Finset.range 1, byteAt ⟨[0x80], 0⟩ (0 + i) * 256 ^ (1 - 1 - i)
      ∧ (∑ i in Finset.range 1, byteAt ⟨[0x80], 0⟩ (0 + i) * 256 ^ (1 - 1 - i)) = 128) :=
  ⟨⟨getNumeric_big_unsigned 64 ⟨[0x00, 0x00, 0x00, 0x01], 0⟩ 0 4
      (by decide) (by decide) (by decide), by decide⟩,
    ⟨getNumeric_big_unsigned 64 ⟨[0x80], 0⟩ 0 1 (by decide) (by decide) (by decide),
      by decide⟩⟩

/-- C3. Little-endian unsigned decode, offset counted from the end: inside the
file, for widths 1, 2 and 4, `getNumeric(f, o, w, UNSIGNED, LITTLE)` is the sum
over `i < w` of `F[L - o - 1 - i] * 256 ^ (w - 1 - i)`: the little-endian value of
the `w` bytes that end at position `L - o`, the byte nearest the end of the file
being the most significant. -/
theorem getNumeric_little_unsigned (W : Nat) (f : FILE) (o w : Nat) (hW : 32 ≤ W)
    (hw : w = 1 ∨ w = 2 ∨ w = 4) (h : o + w ≤ f.data.length) :
    (getNumeric W f (o : Int) w UNSIGNED LITTLE).1
      = ∑ i in Finset.range w, byteAt f (f.data.length - o - 1 - i) * 256 ^ (w - 1 - i) := by
  rw [getNumeric_fst, signAdjust_other W w UNSIGNED _ (by decide),
    assembled_little W f o w (by omega) h]

theorem getNumeric_little_unsigned_witness :
    (getNumeric 32 ⟨[0x11, 0x22, 0x33, 0x44, 0x55], 3⟩ ((1 : Nat) : Int) 2 UNSIGNED LITTLE).1
        = ∑ i in Finset.range 2,
            byteAt ⟨[0x11, 0x22, 0x33, 0x44, 0x55], 3⟩
              ((FILE.mk [0x11, 0x22, 0x33, 0x44, 0x55] 3).data.length - 1 - 1 - i)
              * 256 ^ (2 - 1 - i)
      ∧ (getNumeric 32 ⟨[0x11, 0x22, 0x33, 0x44, 0x55], 3⟩ ((1 : Nat) : Int) 2
          UNSIGNED LITTLE).1 = 0x4433 :=
  ⟨getNumeric_little_unsigned 32 ⟨[0x11, 0x22, 0x33, 0x44, 0x55], 3⟩ 1 2
      (by decide) (by decide) (by decide), by decide⟩

/-- C4. Signed decode is two's-complement sign extension: for widths 1, 2 and 4
and any content `buffer` of the fetched bytes, with `u` the unsigned value
assembled from them, the sign step leaves a result that, read as a signed
integer of the width of the return type, is `u` when `u < 2 ^ (8 * w - 1)` and
`u - 2 ^ (8 * w)` otherwise; hence for every file, offset and endianness the
`SIGNED` result of `getNumeric` is that function of the `UNSIGNED` result. -/
theorem getNumeric_signed (W w : Nat) (hW : 32 ≤ W) (hw : w = 1 ∨ w = 2 ∨ w = 4) :
    (∀ buffer : Buffer,
        toSigned W (signAdjust W w SIGNED (assemble W buffer w))
          = if assemble W buffer w < 2 ^ (8 * w - 1) then (assemble W buffer w : Int)
            else (assemble W buffer w : Int) - 2 ^ (8 * w))
      ∧ (∀ (f : FILE) (off e : Int),
        toSigned W (getNumeric W f off w SIGNED e).1
          = if (getNumeric W f off w UNSIGNED e).1 < 2 ^ (8 * w - 1)
            then ((getNumeric W f off w UNSIGNED e).1 : Int)
            else ((getNumeric W f off w UNSIGNED e).1 : Int) - 2 ^ (8 * w)) := by
  have hW8 : 8 * w ≤ W := by omega
  have key : ∀ buffer : Buffer,
      toSigned W (signAdjust W w SIGNED (assemble W buffer w))
        = if assemble W buffer w < 2 ^ (8 * w - 1) then (assemble W buffer w : Int)
          else (assemble W buffer w : Int) - 2 ^ (8 * w) :=
    fun buffer => toSigned_signAdjust W w _ hw hW (assemble_lt W buffer w hW8)
  refine ⟨key, ?_⟩
  intro f off e
  rw [getNumeric_fst, getNumeric_fst, signAdjust_other W w UNSIGNED _ (by decide)]
  exact key _

/-- The examples of the specification: big-endian bytes `FF FF` at width 2 give `-1`,
byte `80` at width 1 gives `-128` (and `128` unsigned). -/
theorem getNumeric_signed_witness :
    (32 ≤ 64 ∧ ((2 : Nat) = 1 ∨ (2 : Nat) = 2 ∨ (2 : Nat) = 4)
        ∧ ((1 : Nat) = 1 ∨ (1 : Nat) = 2 ∨ (1 : Nat) = 4))
      ∧ toSigned 64 (getNumeric 64 ⟨[0xFF, 0xFF], 0⟩ 0 2 SIGNED BIG).1
          = (if (getNumeric 64 ⟨[0xFF, 0xFF], 0⟩ 0 2 UNSIGNED BIG).1 < 2 ^ (8 * 2 - 1)
            then ((getNumeric 64 ⟨[0xFF, 0xFF], 0⟩ 0 2 UNSIGNED BIG).1 : Int)
            else ((getNumeric 64 ⟨[0xFF, 0xFF], 0⟩ 0 2 UNSIGNED BIG).1 : Int) - 2 ^ (8 * 2))
      ∧ toSigned 64 (getNumeric 64 ⟨[0xFF, 0xFF], 0⟩ 0 2 SIGNED BIG).1 = -1
      ∧ toSigned 64 (getNumeric 64 ⟨[0x80], 0⟩ 0 1 SIGNED BIG).1
          = (if (getNumeric 64 ⟨[0x80], 0⟩ 0 1 UNSIGNED BIG).1 < 2 ^ (8 * 1 - 1)
            then ((getNumeric 64 ⟨[0x80], 0⟩ 0 1 UNSIGNED BIG).1 : Int)
            else ((getNumeric 64 ⟨[0x80], 0⟩ 0 1 UNSIGNED BIG).1 : Int) - 2 ^ (8 * 1))
      ∧ toSigned 64 (getNumeric 64 ⟨[0x80], 0⟩ 0 1 SIGNED BIG).1 = -128
      ∧ toSigned 32 (getNumeric 32 ⟨[0xFF, 0xFF], 0⟩ 0 2 SIGNED BIG).1 = -1
      ∧ toSigned 32 (getNumeric 32 ⟨[0x80], 0⟩ 0 1 SIGNED BIG).1 = -128 :=
  ⟨by decide,
    (getNumeric_signed 64 2 (by decide) (by decide)).2 ⟨[0xFF, 0xFF], 0⟩ 0 BIG,
    by decide,
    (getNumeric_signed 64 1 (by decide) (by decide)).2 ⟨[0x80], 0⟩ 0 BIG,
    by decide, by decide, by decide⟩

/-! ## The shape of a rendered line -/

theorem flatMap_range_succ {α : Type} (g : Nat → List α) (n : Nat) :
    (List.range (n + 1)).flatMap g = (List.range n).flatMap g ++ g n := by
  rw [List.range_succ, List.flatMap_append]
  simp

theorem flatMap_range_length {α : Type} (g : Nat → List α) (c : Nat)
    (hc : ∀ i, (g i).length = c) (n : Nat) : ((List.range n).flatMap g).length = c * n := by
  induction n with
  | zero => simp
  | succ n ih => rw [flatMap_range_succ, List.length_append, ih, hc]; ring

/-- Piece `i` of a loop that writes `c` characters per pass sits at indices
`c * i .. c * i + c - 1`. -/
theorem flatMap_range_getElem? {α : Type} (g : Nat → List α) (c : Nat)
    (hc : ∀ i, (g i).length = c) (n i j : Nat) (hi : i < n) (hj : j < c) :
    ((List.range n).flatMap g)[c * i + j]? = (g i)[j]? := by
  induction n with
  | zero => omega
  | succ n ih =>
    rw [flatMap_range_succ]
    have hlen := flatMap_range_length g c hc n
    by_cases hin : i < n
    · have hlt : c * i + j < c * n := by
        have : c * (i + 1) ≤ c * n := Nat.mul_le_mul_left c hin
        rw [Nat.mul_succ] at this
        omega
      rw [List.getElem?_append_left (by omega), ih hin]
    · have hin : i = n := by omega
      subst hin
      rw [List.getElem?_append_right (by omega), hlen]
      congr 1
      omega

theorem pad_eq (l : List Nat) :
    l.flatMap (fun _ => [' ', ' ', ' ']) = List.replicate (3 * l.length) ' ' := by
  induction l with
  | nil => simp
  | cons a l ih =>
    rw [List.flatMap_cons, ih, List.length_cons]
    have e : 3 * (l.length + 1) = 3 + 3 * l.length := by ring
    rw [e, List.replicate_add]
    rfl

theorem u8_lt (a b : UInt8) : a < b ↔ a.toNat < b.toNat := by
  rw [UInt8.lt_def, BitVec.lt_def]; rfl

theorem printfAscii_eq (b : UInt8) : printfAscii b = [asciiChar b] := by
  have h1 : (32 : UInt8).toNat = 32 := rfl
  have h2 : (126 : UInt8).toNat = 126 := rfl
  by_cases h : 32 ≤ b.toNat ∧ b.toNat ≤ 126
  · have hn : ¬ (b < 32 ∨ b > 126) := by
      rw [gt_iff_lt, u8_lt, u8_lt, h1, h2]; omega
    simp [printfAscii, asciiChar, h, hn]
  · have hn : b < 32 ∨ b > 126 := by
      rw [gt_iff_lt, u8_lt, u8_lt, h1, h2]; omega
    simp [printfAscii, asciiChar, h, hn]

theorem printfHex_length (b : UInt8) : (printfHex b).length = 3 := rfl

theorem printfAscii_length (b : UInt8) : (printfAscii b).length = 1 := by
  rw [printfAscii_eq]; rfl

/-- A line is the hex column, the padding, a tab, the ASCII column and a newline. -/
theorem printLine_shape (buffer : Buffer) (n : Nat) (h : n ≤ 16) :
    printLine buffer n
      = ((List.range n).flatMap (fun i => printfHex (buffer i))
          ++ List.replicate (3 * (16 - n)) ' ')
        ++ '\t' :: ((List.range n).flatMap (fun i => printfAscii (buffer i)) ++ ['\n']) := by
  have hp : (if n ≠ LINESIZE then
        (List.range' n (LINESIZE - n)).flatMap (fun _ => [' ', ' ', ' '])
      else []) = List.replicate (3 * (16 - n)) ' ' := by
    by_cases hn : n = LINESIZE
    · have : n = 16 := hn
      subst this
      simp [LINESIZE]
    · rw [if_pos hn, pad_eq]
      simp [LINESIZE]
  simp only [printLine, hp, List.append_assoc, List.singleton_append, List.cons_append,
    List.nil_append]

theorem hexColumn_length (buffer : Buffer) (n : Nat) :
    ((List.range n).flatMap (fun i => printfHex (buffer i))).length = 3 * n :=
  flatMap_range_length _ 3 (fun i => printfHex_length (buffer i)) n

theorem asciiColumn_length (buffer : Buffer) (n : Nat) :
    ((List.range n).flatMap (fun i => printfAscii (buffer i))).length = n := by
  rw [flatMap_range_length _ 1 (fun i => printfAscii_length (buffer i)) n]; omega

theorem leftPart_length (buffer : Buffer) (n : Nat) (h : n ≤ 16) :
    ((List.range n).flatMap (fun i => printfHex (buffer i))
      ++ List.replicate (3 * (16 - n)) ' ').length = 48 := by
  rw [List.length_append, hexColumn_length, List.length_replicate]; omega

theorem hexDigit_ne_tab : ∀ d < 16, hexDigit d ≠ '\t' := by decide

theorem hexVal_hexDigit : ∀ d < 16, hexVal (hexDigit d) = some d := by decide

theorem tab_not_mem_leftPart (buffer : Buffer) (n : Nat) :
    '\t' ∉ ((List.range n).flatMap (fun i => printfHex (buffer i))
      ++ List.replicate (3 * (16 - n)) ' ') := by
  intro hmem
  rcases List.mem_append.mp hmem with h1 | h2
  · obtain ⟨i, _, hi⟩ := List.mem_flatMap.mp h1
    have hb := byte_lt (buffer i)
    simp only [printfHex, List.mem_cons, List.mem_singleton, List.not_mem_nil, or_false] at hi
    rcases hi with h | h | h
    · exact hexDigit_ne_tab _ (by omega) h.symm
    · exact hexDigit_ne_tab _ (by omega) h.symm
    · exact absurd h (by decide)
  · have := List.eq_of_mem_replicate h2
    exact absurd this (by decide)

set_option maxRecDepth 100000 in
theorem asciiCode_printable : ∀ k < 256, 32 ≤ k ∧ k ≤ 126 → (Char.ofNat k).toNat = k := by
  decide

set_option maxRecDepth 100000 in
theorem asciiCode_ne_newline : ∀ k < 256, 32 ≤ k ∧ k ≤ 126 → Char.ofNat k ≠ '\n' := by
  decide

theorem asciiChar_ne_newline (b : UInt8) : asciiChar b ≠ '\n' := by
  by_cases h : 32 ≤ b.toNat ∧ b.toNat ≤ 126
  · simp only [asciiChar, h, and_self, if_true]
    exact asciiCode_ne_newline _ (byte_lt b) h
  · simp only [asciiChar, h, if_false]
    decide

theorem asciiColumn_getElem? (buffer : Buffer) (n i : Nat) (hi : i < n) :
    ((List.range n).flatMap (fun i => printfAscii (buffer i)))[i]?
      = some (asciiChar (buffer i)) := by
  have := flatMap_range_getElem? (fun i => printfAscii (buffer i)) 1
    (fun i => printfAscii_length (buffer i)) n i 0 hi (by omega)
  simp only [Nat.one_mul, Nat.add_zero] at this
  rw [this, printfAscii_eq]
  rfl

theorem newline_not_mem_asciiColumn (buffer : Buffer) (n : Nat) :
    '\n' ∉ (List.range n).flatMap (fun i => printfAscii (buffer i)) := by
  intro hmem
  obtain ⟨i, _, hi⟩ := List.mem_flatMap.mp hmem
  rw [printfAscii_eq] at hi
  exact asciiChar_ne_newline (buffer i) (List.mem_singleton.mp hi).symm

/-- The characters of the hex column that belong to byte `i`. -/
theorem hexColumn_getElem? (buffer : Buffer) (n i j : Nat) (hn : n ≤ 16) (hi : i < n)
    (hj : j < 3) :
    (printLine buffer n)[3 * i + j]? = (printfHex (buffer i))[j]? := by
  rw [printLine_shape buffer n hn,
    List.getElem?_append_left (by rw [leftPart_length buffer n hn]; omega),
    List.getElem?_append_left (by rw [hexColumn_length]; omega)]
  exact flatMap_range_getElem? (fun i => printfHex (buffer i)) 3
    (fun i => printfHex_length (buffer i)) n i j hi hj

/-! ## Claims about `printLine` -/

/-- C8. ASCII column of a rendered line: for a window of `n ≤ 16` bytes the line
is `left ++ tab ++ ascii ++ newline` with no tab in `left` and no newline in
`ascii`; `ascii`, the text between the tab and the line terminator, has exactly
`n` characters, and its `i`-th character has code `b_i` when `32 ≤ b_i ≤ 126`
and is a space otherwise. -/
theorem printLine_ascii_column (buffer : Buffer) (n : Nat) (hn : n ≤ 16) :
    ∃ left ascii : List Char,
      printLine buffer n = left ++ '\t' :: (ascii ++ ['\n'])
        ∧ '\t' ∉ left ∧ '\n' ∉ ascii ∧ ascii.length = n
        ∧ ∀ i, i < n → ∃ c : Char, ascii[i]? = some c
            ∧ (32 ≤ (buffer i).toNat ∧ (buffer i).toNat ≤ 126 → c.toNat = (buffer i).toNat)
            ∧ (¬ (32 ≤ (buffer i).toNat ∧ (buffer i).toNat ≤ 126) → c = ' ') := by
  refine ⟨_, _, printLine_shape buffer n hn, tab_not_mem_leftPart buffer n,
    newline_not_mem_asciiColumn buffer n, asciiColumn_length buffer n, ?_⟩
  intro i hi
  refine ⟨asciiChar (buffer i), asciiColumn_getElem? buffer n i hi, ?_, ?_⟩
  · intro h
    simp only [asciiChar, h, and_self, if_true]
    exact asciiCode_printable _ (byte_lt _) h
  · intro h
    simp only [asciiChar, h, if_false]

/-- The examples of the specification: byte 65 renders as `A`, byte 9 as a space. -/
theorem printLine_ascii_column_witness :
    (2 ≤ 16
      ∧ ∃ left ascii : List Char,
        printLine (fun i => if i = 0 then 65 else 9) 2 = left ++ '\t' :: (ascii ++ ['\n'])
          ∧ '\t' ∉ left ∧ '\n' ∉ ascii ∧ ascii.length = 2
          ∧ ∀ i, i < 2 → ∃ c : Char, ascii[i]? = some c
              ∧ (32 ≤ ((fun i => if i = 0 then 65 else 9 : Buffer) i).toNat
                  ∧ ((fun i => if i = 0 then 65 else 9 : Buffer) i).toNat ≤ 126 →
                  c.toNat = ((fun i => if i = 0 then 65 else 9 : Buffer) i).toNat)
              ∧ (¬ (32 ≤ ((fun i => if i = 0 then 65 else 9 : Buffer) i).toNat
                  ∧ ((fun i => if i = 0 then 65 else 9 : Buffer) i).toNat ≤ 126) → c = ' '))
      ∧ (printLine (fun i => if i = 0 then 65 else 9) 2).drop 49 = ['A', ' ', '\n']
      ∧ printfAscii 65 = ['A'] ∧ printfAscii 9 = [' '] :=
  ⟨⟨by decide, printLine_ascii_column (fun i => if i = 0 then 65 else 9) 2 (by decide)⟩,
    by decide, by decide, by decide⟩

/-- C9. Hex column of a rendered line: for a window of `n ≤ 16` bytes and `i < n`,
characters `3i` and `3i + 1` of the line are uppercase hexadecimal digits whose
value `16 * d0 + d1` is byte `i`, and character `3i + 2` is a space. -/
theorem printLine_hex_column (buffer : Buffer) (n i : Nat) (hn : n ≤ 16) (hi : i < n) :
    ∃ (c0 c1 : Char) (d0 d1 : Nat),
      (printLine buffer n)[3 * i]? = some c0
        ∧ (printLine buffer n)[3 * i + 1]? = some c1
        ∧ (printLine buffer n)[3 * i + 2]? = some ' '
        ∧ hexVal c0 = some d0 ∧ hexVal c1 = some d1
        ∧ 16 * d0 + d1 = (buffer i).toNat := by
  have hb := byte_lt (buffer i)
  refine ⟨hexDigit ((buffer i).toNat / 16), hexDigit ((buffer i).toNat % 16),
    (buffer i).toNat / 16, (buffer i).toNat % 16, ?_, ?_, ?_, ?_, ?_, ?_⟩
  · have := hexColumn_getElem? buffer n i 0 hn hi (by omega)
    rw [Nat.add_zero] at this
    rw [this]; rfl
  · rw [hexColumn_getElem? buffer n i 1 hn hi (by omega)]; rfl
  · rw [hexColumn_getElem? buffer n i 2 hn hi (by omega)]; rfl
  · exact hexVal_hexDigit _ (by omega)
  · exact hexVal_hexDigit _ (by omega)
  · omega

theorem printLine_hex_column_witness :
    (3 ≤ 16 ∧ 1 < 3)
      ∧ (∃ (c0 c1 : Char) (d0 d1 : Nat),
        (printLine (fun i => if i = 1 then 0xAF else 0x07) 3)[3 * 1]? = some c0
          ∧ (printLine (fun i => if i = 1 then 0xAF else 0x07) 3)[3 * 1 + 1]? = some c1
          ∧ (printLine (fun i => if i = 1 then 0xAF else 0x07) 3)[3 * 1 + 2]? = some ' '
          ∧ hexVal c0 = some d0 ∧ hexVal c1 = some d1
          ∧ 16 * d0 + d1 = ((fun i => if i = 1 then 0xAF else 0x07 : Buffer) 1).toNat)
      ∧ (printLine (fun i => if i = 1 then 0xAF else 0x07) 3).take 9
          = ['0', '7', ' ', 'A', 'F', ' ', '0', '7', ' '] :=
  ⟨by decide, printLine_hex_column (fun i => if i = 1 then 0xAF else 0x07) 3 1
    (by decide) (by decide), by decide⟩

/-- C10. Fixed-width alignment: for a window of `n ≤ 16` bytes the part of the
line before the tab is 48 characters long, 3 per byte followed by 3 spaces for
each of the `16 - n` missing bytes; the tab is at index 48 (and nowhere
earlier), the ASCII column starts at index 49, and the whole line, terminator
included, has `50 + n` characters. -/
theorem printLine_alignment (buffer : Buffer) (n : Nat) (hn : n ≤ 16) :
    (printLine buffer n).take 48
        = (List.range n).flatMap (fun i => printfHex (buffer i))
          ++ List.replicate (3 * (16 - n)) ' '
      ∧ ((List.range n).flatMap (fun i => printfHex (buffer i))).length = 3 * n
      ∧ ((printLine buffer n).take 48).length = 48
      ∧ '\t' ∉ (printLine buffer n).take 48
      ∧ (printLine buffer n)[48]? = some '\t'
      ∧ (printLine buffer n).drop 49
          = (List.range n).map (fun i => asciiChar (buffer i)) ++ ['\n']
      ∧ (printLine buffer n).length = 50 + n := by
  have hshape := printLine_shape buffer n hn
  have hlen := leftPart_length buffer n hn
  have htake : (printLine buffer n).take 48
      = (List.range n).flatMap (fun i => printfHex (buffer i))
        ++ List.replicate (3 * (16 - n)) ' ' := by
    rw [hshape]; exact List.take_left' hlen
  have hasc : (List.range n).flatMap (fun i => printfAscii (buffer i))
      = (List.range n).map (fun i => asciiChar (buffer i)) := by
    apply List.ext_getElem?
    intro i
    by_cases hi : i < n
    · rw [asciiColumn_getElem? buffer n i hi]
      simp [hi]
    · rw [List.getElem?_eq_none (by rw [asciiColumn_length]; omega),
        List.getElem?_eq_none (by simp; omega)]
  refine ⟨htake, hexColumn_length buffer n, ?_, ?_, ?_, ?_, ?_⟩
  · rw [htake, hlen]
  · rw [htake]; exact tab_not_mem_leftPart buffer n
  · rw [hshape, List.getElem?_append_right (by omega), hlen]; simp
  · rw [hshape, ← hasc]
    have e : ((List.range n).flatMap (fun i => printfHex (buffer i))
          ++ List.replicate (3 * (16 - n)) ' ')
        ++ '\t' :: ((List.range n).flatMap (fun i => printfAscii (buffer i)) ++ ['\n'])
        = (((List.range n).flatMap (fun i => printfHex (buffer i))
          ++ List.replicate (3 * (16 - n)) ' ') ++ ['\t'])
        ++ ((List.range n).flatMap (fun i => printfAscii (buffer i)) ++ ['\n']) := by
      simp
    rw [e]
    exact List.drop_left' (by rw [List.length_append, hlen]; rfl)
  · rw [hshape, List.length_append, hlen, List.length_cons, List.length_append,
      asciiColumn_length]
    simp; omega

theorem printLine_alignment_witness :
    (4 ≤ 16)
      ∧ ((printLine (fun _ => 0x41) 4).take 48
          = (List.range 4).flatMap (fun i => printfHex ((fun _ => 0x41 : Buffer) i))
            ++ List.replicate (3 * (16 - 4)) ' '
        ∧ ((List.range 4).flatMap (fun i => printfHex ((fun _ => 0x41 : Buffer) i))).length
            = 3 * 4
        ∧ ((printLine (fun _ => 0x41) 4).take 48).length = 48
        ∧ '\t' ∉ (printLine (fun _ => 0x41) 4).take 48
        ∧ (printLine (fun _ => 0x41) 4)[48]? = some '\t'
        ∧ (printLine (fun _ => 0x41) 4).drop 49
            = (List.range 4).map (fun i => asciiChar ((fun _ => 0x41 : Buffer) i)) ++ ['\n']
        ∧ (printLine (fun _ => 0x41) 4).length = 50 + 4) :=
  ⟨by decide, printLine_alignment (fun _ => 0x41) 4 (by decide)⟩

/-! ## The dump loop -/

/-- A line depends only on the first `n` bytes of the buffer. -/
theorem printLine_congr (b1 b2 : Buffer) (n : Nat) (h : ∀ i, i < n → b1 i = b2 i) :
    printLine b1 n = printLine b2 n := by
  have hx : (List.range n).map (fun i => printfHex (b1 i))
      = (List.range n).map (fun i => printfHex (b2 i)) :=
    List.map_congr_left (fun i hi => by rw [h i (List.mem_range.mp hi)])
  have ha : (List.range n).map (fun i => printfAscii (b1 i))
      = (List.range n).map (fun i => printfAscii (b2 i)) :=
    List.map_congr_left (fun i hi => by rw [h i (List.mem_range.mp hi)])
  simp only [printLine, List.flatMap, hx, ha]

/-- The window a buffer holds when its first `n` bytes are the file bytes from `start`. -/
theorem window_eq (b : Buffer) (F : List UInt8) (start n : Nat) (hlen : start + n ≤ F.length)
    (h : ∀ i, i < n → b i = F.getD (start + i) 0) :
    (List.range n).map b = (F.drop start).take n := by
  apply List.ext_getElem
  · simp; omega
  · intro i h1 h2
    simp at h1 h2
    have : start + i < F.length := by omega
    simp [h i h1, List.getElem?_eq_getElem this]

/-- The `while` loop, started at a position `16 * k + linePos` with the buffer holding
the `linePos` bytes read since the last full line, ends at end-of-file when
the fuel exceeds the number of bytes left; it has then printed the full lines
`k, k + 1, ...`, and the buffer holds the `L % 16` bytes left over. -/
theorem dumpLoop_run (F : List UInt8) :
    ∀ (rem fuel : Nat) (s : DumpState) (k : Nat),
      s.fin.data = F → s.fin.pos = 16 * k + s.linePos → s.linePos < 16 →
      s.fin.pos + rem = F.length → rem < fuel →
      (∀ i, i < s.linePos → s.buffer i = F.getD (16 * k + i) 0) →
      ∃ s', dumpLoop fuel s = some s' ∧ s'.fin = ⟨F, F.length⟩
        ∧ s'.linePos = F.length % 16
        ∧ (∀ i, i < F.length % 16 → s'.buffer i = F.getD (16 * (F.length / 16) + i) 0)
        ∧ s'.out = s.out ++ (List.range' k (F.length / 16 - k)).flatMap
            (fun j => printLine (fileWindow F (16 * j)) 16)
        ∧ s'.calls = s.calls ++ (List.range' k (F.length / 16 - k)).map
            (fun j => (F.drop (16 * j)).take 16) := by
  intro rem
  induction rem with
  | zero =>
    rintro fuel ⟨⟨data, pos⟩, buffer, linePos, out, calls⟩ k hd hp hl hrem hfuel hbuf
    simp only at hd hp hl hrem hbuf
    subst hd
    obtain ⟨fuel, rfl⟩ : ∃ m, fuel = m + 1 := ⟨fuel - 1, by omega⟩
    have hpos : pos = data.length := by omega
    subst hpos
    have hk : data.length / 16 = k := by omega
    have hm : data.length % 16 = linePos := by omega
    refine ⟨⟨⟨data, data.length⟩, buffer, linePos, out, calls⟩, ?_, rfl, hm.symm, ?_, ?_, ?_⟩
    · simp only [dumpLoop, fread_eof buffer linePos data data.length (le_refl _)]
      simp
    · intro i hi
      rw [hk]; exact hbuf i (by omega)
    · simp [hk]
    · simp [hk]
  | succ rem ih =>
    rintro fuel ⟨⟨data, pos⟩, buffer, linePos, out, calls⟩ k hd hp hl hrem hfuel hbuf
    simp only at hd hp hl hrem hbuf
    subst hd
    subst hp
    obtain ⟨fuel, rfl⟩ : ∃ m, fuel = m + 1 := ⟨fuel - 1, by omega⟩
    have hlt : 16 * k + linePos < data.length := by omega
    have hread := fread_avail buffer linePos data (16 * k + linePos) hlt
    have hnew : ∀ i, i < linePos + 1 →
        writeAt buffer linePos (data.getD (16 * k + linePos) 0) i = data.getD (16 * k + i) 0 := by
      intro i hi
      by_cases he : i = linePos
      · subst he; simp [writeAt]
      · simp only [writeAt, he, if_false]
        exact hbuf i (by omega)
    by_cases hfull : linePos = LINESIZE - 1
    · have h15 : linePos = 15 := hfull
      have hk1 : k + 1 ≤ data.length / 16 := by omega
      have hstep : dumpLoop (fuel + 1) ⟨⟨data, 16 * k + linePos⟩, buffer, linePos, out, calls⟩
          = dumpLoop fuel ⟨⟨data, 16 * k + linePos + 1⟩,
              writeAt buffer linePos (data.getD (16 * k + linePos) 0), 0,
              out ++ printLine (writeAt buffer linePos (data.getD (16 * k + linePos) 0)) LINESIZE,
              calls ++ [(List.range LINESIZE).map
                (writeAt buffer linePos (data.getD (16 * k + linePos) 0))]⟩ := by
        simp only [dumpLoop, hread, callPrintLine, if_pos hfull, if_true]
      obtain ⟨s', hrun, hf', hl', hb', ho', hc'⟩ :=
        ih fuel (⟨⟨data, 16 * k + linePos + 1⟩,
              writeAt buffer linePos (data.getD (16 * k + linePos) 0), 0,
              out ++ printLine (writeAt buffer linePos (data.getD (16 * k + linePos) 0)) LINESIZE,
              calls ++ [(List.range LINESIZE).map
                (writeAt buffer linePos (data.getD (16 * k + linePos) 0))]⟩ : DumpState)
          (k + 1) rfl (by simp only; omega) (by simp only; omega)
          (by simp only; omega) (by omega) (by intro i hi; simp only at hi; omega)
      refine ⟨s', ?_, hf', hl', hb', ?_, ?_⟩
      · rw [hstep, hrun]
      · rw [ho']
        have hsplit : List.range' k (data.length / 16 - k)
            = k :: List.range' (k + 1) (data.length / 16 - (k + 1)) := by
          have e : data.length / 16 - k = (data.length / 16 - (k + 1)) + 1 := by omega
          rw [e, List.range'_succ]
        have hline : printLine (writeAt buffer linePos (data.getD (16 * k + linePos) 0))
            LINESIZE = printLine (fileWindow data (16 * k)) 16 := by
          apply printLine_congr
          intro i hi
          have hi : i < 16 := hi
          rw [hnew i (by omega)]
          rfl
        simp only [hline, hsplit, List.flatMap_cons, List.append_assoc]
      · rw [hc']
        have hsplit : List.range' k (data.length / 16 - k)
            = k :: List.range' (k + 1) (data.length / 16 - (k + 1)) := by
          have e : data.length / 16 - k = (data.length / 16 - (k + 1)) + 1 := by omega
          rw [e, List.range'_succ]
        have hwin : (List.range LINESIZE).map
            (writeAt buffer linePos (data.getD (16 * k + linePos) 0))
            = (data.drop (16 * k)).take 16 :=
          window_eq _ data (16 * k) 16 (by omega) (fun i hi => hnew i (by omega))
        simp only [hwin, hsplit, List.map_cons, List.append_assoc, List.singleton_append]
    · have hne : linePos ≠ 15 := hfull
      have hstep : dumpLoop (fuel + 1) ⟨⟨data, 16 * k + linePos⟩, buffer, linePos, out, calls⟩
          = dumpLoop fuel ⟨⟨data, 16 * k + linePos + 1⟩,
              writeAt buffer linePos (data.getD (16 * k + linePos) 0), linePos + 1,
              out, calls⟩ := by
        simp only [dumpLoop, hread, if_neg hfull, if_true]
      obtain ⟨s', hrun, hf', hl', hb', ho', hc'⟩ :=
        ih fuel (⟨⟨data, 16 * k + linePos + 1⟩,
              writeAt buffer linePos (data.getD (16 * k + linePos) 0), linePos + 1,
              out, calls⟩ : DumpState)
          k rfl (by simp only; omega) (by simp only; omega)
          (by simp only; omega) (by omega) (by intro i hi; exact hnew i hi)
      exact ⟨s', by rw [hstep, hrun], hf', hl', hb', ho', hc'⟩

theorem fseek_rewind (f : FILE) : fseek f 0 Whence.SEEK_SET = ⟨f.data, 0⟩ := by
  simp [fseek]

/-- The whole of `binaryDumpAsASCII`: with fuel above the length of the file it
returns; it has called `printLine` on the `L / 16` full windows, in order, and
then once more on the `L % 16` bytes that remain. -/
theorem binaryDump_run (fuel : Nat) (f : FILE) (buffer : Buffer)
    (hfuel : f.data.length < fuel) :
    ∃ s, binaryDumpAsASCII fuel f buffer = some s
      ∧ s.calls = (List.range (f.data.length / 16)).map
            (fun k => (f.data.drop (16 * k)).take 16)
          ++ [f.data.drop (16 * (f.data.length / 16))]
      ∧ s.out = (List.range (f.data.length / 16)).flatMap
            (fun k => printLine (fileWindow f.data (16 * k)) 16)
          ++ printLine (fileWindow f.data (16 * (f.data.length / 16))) (f.data.length % 16) := by
  obtain ⟨s', hrun, hf', hl', hb', ho', hc'⟩ :=
    dumpLoop_run f.data f.data.length fuel
      (⟨⟨f.data, 0⟩, buffer, 0, [], []⟩ : DumpState) 0 rfl rfl (by simp only; omega)
      (by simp only; omega) hfuel (by intro i hi; simp only at hi; omega)
  obtain ⟨fin', buffer', linePos', out', calls'⟩ := s'
  simp only at hf' hl' hb' ho' hc'
  subst hf' hl' ho' hc'
  have hdm : 16 * (f.data.length / 16) + f.data.length % 16 = f.data.length :=
    Nat.div_add_mod _ _
  have hwin : (List.range (f.data.length % 16)).map buffer'
      = f.data.drop (16 * (f.data.length / 16)) := by
    rw [window_eq buffer' f.data (16 * (f.data.length / 16)) (f.data.length % 16)
      (by omega) hb']
    exact List.take_of_length_le (by simp; omega)
  have hline : printLine buffer' (f.data.length % 16)
      = printLine (fileWindow f.data (16 * (f.data.length / 16))) (f.data.length % 16) :=
    printLine_congr _ _ _ (fun i hi => by rw [hb' i hi]; rfl)
  refine ⟨⟨⟨f.data, f.data.length⟩, buffer', f.data.length % 16,
      (List.range (f.data.length / 16)).flatMap
          (fun k => printLine (fileWindow f.data (16 * k)) 16)
        ++ printLine (fileWindow f.data (16 * (f.data.length / 16))) (f.data.length % 16),
      (List.range (f.data.length / 16)).map (fun k => (f.data.drop (16 * k)).take 16)
        ++ [f.data.drop (16 * (f.data.length / 16))]⟩, ?_, rfl, rfl⟩
  simp only [binaryDumpAsASCII, fseek_rewind, hrun,
    fread_eof buffer' _ f.data f.data.length (le_refl _), callPrintLine, hwin, hline]
  simp [List.range_eq_range']

theorem chunks_flatten (F : List UInt8) :
    ∀ m, ((List.range m).map (fun k => (F.drop (16 * k)).take 16)).flatten
      = F.take (16 * m) := by
  intro m
  induction m with
  | zero => simp
  | succ m ih =>
    rw [List.range_succ, List.map_append, List.flatten_append, ih]
    have e : 16 * (m + 1) = 16 * m + 16 := by ring
    rw [e, List.take_add]
    simp

theorem placeholders_eq (m : Nat) :
    (List.replicate m [' ', ' ', ' ']).flatten = List.replicate (3 * m) ' ' := by
  induction m with
  | zero => simp
  | succ m ih =>
    have e : 3 * (m + 1) = 3 + 3 * m := by ring
    rw [List.replicate_succ, List.flatten_cons, ih, e, List.replicate_add]
    rfl

/-! ## Claims about `binaryDumpAsASCII` -/

/-- C5 (the code departs from it). On the empty file `binaryDumpAsASCII` calls
`printLine` once, with an empty window, and writes one line of 48 spaces, a tab
and a newline; on a 16-byte file it calls `printLine` twice and writes the full
line followed by that same blank line: the second `fread` of line 128 fails at
end-of-file whatever `linePos` is, so the final `printLine` always runs. -/
theorem binaryDump_extra_line :
    (∀ buffer : Buffer,
        (binaryDumpAsASCII 1 file0 buffer).map (fun s => (s.calls, s.out))
          = some ([[]], List.replicate 48 ' ' ++ ['\t', '\n']))
      ∧ (∀ buffer : Buffer,
        (binaryDumpAsASCII 17 file16 buffer).map (fun s => (s.calls.map List.length, s.out))
          = some ([16, 0],
              "41 42 43 44 45 46 47 48 49 4A 4B 4C 4D 4E 4F 50 \tABCDEFGHIJKLMNOP\n".toList
                ++ (List.replicate 48 ' ' ++ ['\t', '\n']))) := by
  constructor
  · intro buffer; rfl
  · intro buffer
    obtain ⟨s, hs, hc, ho⟩ := binaryDump_run 17 file16 buffer (by decide)
    rw [hs, Option.map_some', hc, ho]
    decide

/-- C6. Dump of a file whose length `n` is not a multiple of 16: with enough fuel
`binaryDumpAsASCII` returns, having called `printLine` exactly `n / 16 + 1` times:
on the `n / 16` full 16-byte windows of the file, in order, then once on the
last `r = n % 16` bytes (`1 ≤ r ≤ 15`). The text written is those full lines
followed by the partial line, and the partial line carries exactly `16 - r`
three-space placeholders between its hex column and the tab. -/
theorem binaryDump_partial_line (fuel : Nat) (f : FILE) (buffer : Buffer)
    (hfuel : f.data.length < fuel) (hr : f.data.length % 16 ≠ 0) :
    ∃ s, binaryDumpAsASCII fuel f buffer = some s
      ∧ s.calls = (List.range (f.data.length / 16)).map
            (fun k => (f.data.drop (16 * k)).take 16)
          ++ [f.data.drop (f.data.length - f.data.length % 16)]
      ∧ s.calls.length = f.data.length / 16 + 1
      ∧ (∀ k, k < f.data.length / 16 → ((f.data.drop (16 * k)).take 16).length = 16)
      ∧ (f.data.drop (f.data.length - f.data.length % 16)).length = f.data.length % 16
      ∧ 1 ≤ f.data.length % 16 ∧ f.data.length % 16 ≤ 15
      ∧ s.out = (List.range (f.data.length / 16)).flatMap
            (fun k => printLine (fileWindow f.data (16 * k)) 16)
          ++ printLine (fileWindow f.data (f.data.length - f.data.length % 16))
              (f.data.length % 16)
      ∧ printLine (fileWindow f.data (f.data.length - f.data.length % 16))
            (f.data.length % 16)
          = (List.range (f.data.length % 16)).flatMap
              (fun i => printfHex (fileWindow f.data
                (f.data.length - f.data.length % 16) i))
            ++ (List.replicate (16 - f.data.length % 16) [' ', ' ', ' ']).flatten
            ++ '\t' :: ((List.range (f.data.length % 16)).flatMap
              (fun i => printfAscii (fileWindow f.data
                (f.data.length - f.data.length % 16) i)) ++ ['\n']) := by
  obtain ⟨s, hs, hc, ho⟩ := binaryDump_run fuel f buffer hfuel
  have hdm : 16 * (f.data.length / 16) + f.data.length % 16 = f.data.length :=
    Nat.div_add_mod _ _
  have hstart : 16 * (f.data.length / 16) = f.data.length - f.data.length % 16 := by omega
  have hrlt : f.data.length % 16 < 16 := Nat.mod_lt _ (by norm_num)
  rw [hstart] at hc ho
  refine ⟨s, hs, hc, ?_, ?_, ?_, by omega, by omega, ho, ?_⟩
  · rw [hc]; simp
  · intro k hk
    rw [List.length_take, List.length_drop]
    omega
  · rw [List.length_drop]; omega
  · rw [printLine_shape _ _ (by omega), placeholders_eq]

theorem binaryDump_partial_line_witness :
    (file20.data.length < 21 ∧ file20.data.length % 16 ≠ 0)
      ∧ (∃ s, binaryDumpAsASCII 21 file20 (fun _ => 0) = some s
        ∧ s.calls = (List.range (file20.data.length / 16)).map
              (fun k => (file20.data.drop (16 * k)).take 16)
            ++ [file20.data.drop (file20.data.length - file20.data.length % 16)]
        ∧ s.calls.length = file20.data.length / 16 + 1
        ∧ (∀ k, k < file20.data.length / 16 →
            ((file20.data.drop (16 * k)).take 16).length = 16)
        ∧ (file20.data.drop (file20.data.length - file20.data.length % 16)).length
            = file20.data.length % 16
        ∧ 1 ≤ file20.data.length % 16 ∧ file20.data.length % 16 ≤ 15
        ∧ s.out = (List.range (file20.data.length / 16)).flatMap
              (fun k => printLine (fileWindow file20.data (16 * k)) 16)
            ++ printLine (fileWindow file20.data
                (file20.data.length - file20.data.length % 16)) (file20.data.length % 16)
        ∧ printLine (fileWindow file20.data (file20.data.length - file20.data.length % 16))
              (file20.data.length % 16)
            = (List.range (file20.data.length % 16)).flatMap
                (fun i => printfHex (fileWindow file20.data
                  (file20.data.length - file20.data.length % 16) i))
              ++ (List.replicate (16 - file20.data.length % 16) [' ', ' ', ' ']).flatten
              ++ '\t' :: ((List.range (file20.data.length % 16)).flatMap
                (fun i => printfAscii (fileWindow file20.data
                  (file20.data.length - file20.data.length % 16) i)) ++ ['\n']))
      ∧ (binaryDumpAsASCII 21 file20 (fun _ => 0)).map
            (fun s => (s.calls.map List.length, s.out))
          = some ([16, 4],
              "41 42 43 44 45 46 47 48 49 4A 4B 4C 4D 4E 4F 50 \tABCDEFGHIJKLMNOP\n".toList
                ++ ("51 52 53 54 ".toList
                  ++ (List.replicate 12 [' ', ' ', ' ']).flatten ++ "\tQRST\n".toList)) :=
  ⟨by decide, binaryDump_partial_line 21 file20 (fun _ => 0) (by decide) (by decide),
    by decide⟩

theorem chunk_getD (F : List UInt8) (start i : Nat) (hi : i < 16) :
    ((F.drop start).take 16).getD i 0 = F.getD (start + i) 0 := by
  rw [List.getD_eq_getElem?_getD, List.getD_eq_getElem?_getD, List.getElem?_take,
    if_pos hi, List.getElem?_drop]

theorem tail_getD (F : List UInt8) (start i : Nat) :
    (F.drop start).getD i 0 = F.getD (start + i) 0 := by
  rw [List.getD_eq_getElem?_getD, List.getD_eq_getElem?_getD, List.getElem?_drop]

/-- C7. The dump is a lossless, in-order, single pass in 16-byte windows from the
start of the file: whatever the position indicator was before the call, with
enough fuel `binaryDumpAsASCII` returns, and the windows it gave to `printLine`
are, in the order of the calls, exactly the `L / 16` full windows
`F[16k .. 16k + 15]` followed by one last window holding the `L % 16 < 16` bytes
that remain. So there are `L / 16 + 1` windows, none longer than 16 bytes, every
window but the last holds exactly 16 bytes, their concatenation is the file
(no byte dropped, repeated or reordered), and the text written is the
rendering of these windows, one line each, in that order. -/
theorem binaryDump_lossless (fuel : Nat) (f : FILE) (buffer : Buffer)
    (hfuel : f.data.length < fuel) :
    ∃ s, binaryDumpAsASCII fuel f buffer = some s
      ∧ s.calls.flatten = f.data
      ∧ (∀ k, k + 1 < s.calls.length →
          s.calls[k]? = some ((f.data.drop (16 * k)).take 16)
            ∧ ((f.data.drop (16 * k)).take 16).length = 16)
      ∧ s.calls = (List.range (f.data.length / 16)).map
            (fun k => (f.data.drop (16 * k)).take 16)
          ++ [f.data.drop (16 * (f.data.length / 16))]
      ∧ s.calls.length = f.data.length / 16 + 1
      ∧ s.calls[f.data.length / 16]? = some (f.data.drop (16 * (f.data.length / 16)))
      ∧ (f.data.drop (16 * (f.data.length / 16))).length = f.data.length % 16
      ∧ f.data.length % 16 < 16
      ∧ (∀ w, w ∈ s.calls → w.length ≤ 16)
      ∧ s.out = s.calls.flatMap (fun w => printLine (fun i => w.getD i 0) w.length) := by
  obtain ⟨s, hs, hc, ho⟩ := binaryDump_run fuel f buffer hfuel
  have hdm : 16 * (f.data.length / 16) + f.data.length % 16 = f.data.length :=
    Nat.div_add_mod _ _
  have hrlt : f.data.length % 16 < 16 := Nat.mod_lt _ (by norm_num)
  have hlast : (f.data.drop (16 * (f.data.length / 16))).length = f.data.length % 16 := by
    rw [List.length_drop]; omega
  have hfull : ∀ k, k < f.data.length / 16 →
      ((f.data.drop (16 * k)).take 16).length = 16 := by
    intro k hk
    rw [List.length_take, List.length_drop]
    omega
  have hlen : s.calls.length = f.data.length / 16 + 1 := by
    rw [hc]; simp
  refine ⟨s, hs, ?_, ?_, hc, hlen, ?_, hlast, hrlt, ?_, ?_⟩
  · rw [hc, List.flatten_append, chunks_flatten]
    simp
  · intro k hk
    have hk : k < f.data.length / 16 := by omega
    refine ⟨?_, hfull k hk⟩
    rw [hc, List.getElem?_append_left (by simp; exact hk)]
    simp [hk]
  · rw [hc, List.getElem?_append_right (by simp)]
    simp
  · intro w hw
    rw [hc] at hw
    rcases List.mem_append.mp hw with h1 | h2
    · obtain ⟨k, hk, rfl⟩ := List.mem_map.mp h1
      rw [hfull k (List.mem_range.mp hk)]
    · rw [List.mem_singleton.mp h2, hlast]; omega
  · rw [ho, hc, List.flatMap_append]
    congr 1
    · simp only [List.flatMap, List.map_map]
      congr 1
      apply List.map_congr_left
      intro k hk
      have hk : k < f.data.length / 16 := List.mem_range.mp hk
      simp only [Function.comp, hfull k hk]
      exact printLine_congr _ _ _ (fun i hi => by
        simp only [fileWindow]; exact (chunk_getD f.data (16 * k) i hi).symm)
    · simp only [List.flatMap_cons, List.flatMap_nil, List.append_nil, hlast]
      exact printLine_congr _ _ _ (fun i _ => by
        simp only [fileWindow]; exact (tail_getD f.data _ i).symm)

/-- The 20-byte file, read with the position indicator at 7 before the call: two
windows, of 16 and of 4 bytes. -/
theorem binaryDump_lossless_witness :
    (file20.data.length < 21)
      ∧ (∃ s, binaryDumpAsASCII 21 file20 (fun _ => 0) = some s
        ∧ s.calls.flatten = file20.data
        ∧ (∀ k, k + 1 < s.calls.length →
            s.calls[k]? = some ((file20.data.drop (16 * k)).take 16)
              ∧ ((file20.data.drop (16 * k)).take 16).length = 16)
        ∧ s.calls = (List.range (file20.data.length / 16)).map
              (fun k => (file20.data.drop (16 * k)).take 16)
            ++ [file20.data.drop (16 * (file20.data.length / 16))]
        ∧ s.calls.length = file20.data.length / 16 + 1
        ∧ s.calls[file20.data.length / 16]?
            = some (file20.data.drop (16 * (file20.data.length / 16)))
        ∧ (file20.data.drop (16 * (file20.data.length / 16))).length
            = file20.data.length % 16
        ∧ file20.data.length % 16 < 16
        ∧ (∀ w, w ∈ s.calls → w.length ≤ 16)
        ∧ s.out = s.calls.flatMap (fun w => printLine (fun i => w.getD i 0) w.length))
      ∧ (binaryDumpAsASCII 21 file20 (fun _ => 0)).map (fun s => s.calls)
          = some [(List.range 16).map (fun i => UInt8.ofNat (65 + i)),
              (List.range 4).map (fun i => UInt8.ofNat (81 + i))] :=
  ⟨by decide, binaryDump_lossless 21 file20 (fun _ => 0) (by decide), by decide⟩

/-! ## Reads that leave the file -/

theorem bigStep_eof (buffer : Buffer) (F : List UInt8) (p i : Nat) (h : F.length ≤ p) :
    bigStep (buffer, ⟨F, p⟩) i = (buffer, ⟨F, p⟩) := by
  simp [bigStep, fread_eof buffer i F p h]

/-- The `BIG` loop without any bound on the offset: a pass whose position is inside
the file stores that byte, a pass at or past end-of-file stores nothing. -/
theorem foldl_bigStep_any (buffer : Buffer) (F : List UInt8) (o : Nat) :
    ∀ k, (List.range k).foldl bigStep (buffer, ⟨F, o⟩)
        = (fun j => if j < k ∧ o + j < F.length then F.getD (o + j) 0 else buffer j,
            ⟨F, max o (min (o + k) F.length)⟩) := by
  intro k
  induction k with
  | zero =>
    have e : max o (min (o + 0) F.length) = o := by omega
    simp [e]
  | succ k ih =>
    rw [List.range_succ, List.foldl_append, ih]
    simp only [List.foldl_cons, List.foldl_nil]
    by_cases hin : o + k < F.length
    · have e1 : max o (min (o + k) F.length) = o + k := by omega
      have e2 : max o (min (o + (k + 1)) F.length) = o + k + 1 := by omega
      rw [e1, e2, bigStep_avail _ F (o + k) k hin]
      refine Prod.ext ?_ rfl
      funext j
      simp only [writeAt]
      by_cases hj : j = k
      · subst hj; simp [hin]
      · by_cases hlt : j < k
        · have : j < k + 1 := by omega
          simp [hj, hlt, this]
        · have : ¬ j < k + 1 := by omega
          simp [hj, hlt, this]
    · have e2 : max o (min (o + (k + 1)) F.length) = max o (min (o + k) F.length) := by omega
      rw [e2, bigStep_eof _ F _ k (by omega)]
      refine Prod.ext ?_ rfl
      funext j
      by_cases hj : j = k
      · subst hj; simp [hin]
      · by_cases hlt : j < k
        · have : j < k + 1 := by omega
          simp [hlt, this]
        · have : ¬ j < k + 1 := by omega
          simp [hlt, this]

theorem getD_outside (F : List UInt8) (j : Nat) (h : F.length ≤ j) : F.getD j 0 = 0 := by
  simp [List.getD, List.getElem?_eq_none h]

/-- With the buffer zeroed, the `BIG` branch leaves in `buffer[i]` the byte at `o + i`,
or zero when that position is not in the file. -/
theorem fetch_big_any (f : FILE) (o w : Nat) :
    (fetch f (o : Int) w BIG (fun _ => 0)).1
      = fun j => if j < w then f.data.getD (o + j) 0 else 0 := by
  obtain ⟨F, p⟩ := f
  have hne : ¬ (BIG = LITTLE) := by decide
  simp only [fetch, hne, if_false, if_true, fseek_set]
  rw [foldl_bigStep_any]
  funext j
  by_cases hj : j < w
  · by_cases hin : o + j < F.length
    · simp [hj, hin]
    · have h0 := getD_outside F (o + j) (by omega)
      simp only [hj, hin, and_false, if_true, if_false]
      exact h0.symm
  · simp [hj]

theorem assembled_big_any (W : Nat) (f : FILE) (o w : Nat) (hW : 8 * w ≤ W) :
    assemble W (fetch f (o : Int) w BIG (fun _ => 0)).1 w
      = ∑ i in Finset.range w, byteAt f (o + i) * 256 ^ (w - 1 - i) := by
  rw [fetch_big_any f o w, assemble_eq W _ w hW]
  apply Finset.sum_congr rfl
  intro i hi
  have hi : i < w := Finset.mem_range.mp hi
  simp [byteAt, hi]

theorem getD_append_zeros (F : List UInt8) (m j : Nat) :
    (F ++ List.replicate m 0).getD j 0 = F.getD j 0 := by
  by_cases h : j < F.length
  · simp [List.getD, List.getElem?_append_left h]
  · rw [getD_outside F j (by omega), List.getD_eq_getElem?_getD,
      List.getElem?_append_right (show F.length ≤ j by omega), List.getElem?_replicate]
    by_cases h2 : j - F.length < m
    · simp [h2]
    · simp [h2]

/-- C11. Big-endian reads past end-of-file are silently zero-filled: for widths 1, 2
and 4 and `o + w` beyond the length `L`, `getNumeric(f, o, w, UNSIGNED, BIG)`
returns (it is a total function, there is no error path) the sum in which a
position below `L` contributes the byte of the file and a position at or
above `L` contributes `0`; this is the value it returns on the file extended
with zero bytes up to length `o + w`. -/
theorem getNumeric_big_zero_fill (W : Nat) (f : FILE) (o w : Nat) (hW : 32 ≤ W)
    (hw : w = 1 ∨ w = 2 ∨ w = 4) (h : f.data.length < o + w) :
    (getNumeric W f (o : Int) w UNSIGNED BIG).1
        = ∑ i in Finset.range w,
            (if o + i < f.data.length then (f.data.getD (o + i) 0).toNat else 0)
              * 256 ^ (w - 1 - i)
      ∧ (getNumeric W f (o : Int) w UNSIGNED BIG).1
        = (getNumeric W ⟨f.data ++ List.replicate (o + w - f.data.length) 0, f.pos⟩
            (o : Int) w UNSIGNED BIG).1
      ∧ (f.data ++ List.replicate (o + w - f.data.length) 0).length = o + w := by
  have hW8 : 8 * w ≤ W := by omega
  refine ⟨?_, ?_, ?_⟩
  · rw [getNumeric_fst, signAdjust_other W w UNSIGNED _ (by decide),
      assembled_big_any W f o w hW8]
    apply Finset.sum_congr rfl
    intro i _
    by_cases hin : o + i < f.data.length
    · simp [byteAt, hin]
    · simp only [byteAt, hin, if_false, getD_outside f.data (o + i) (by omega)]
      rfl
  · rw [getNumeric_fst, getNumeric_fst, signAdjust_other W w UNSIGNED _ (by decide),
      signAdjust_other W w UNSIGNED _ (by decide), assembled_big_any W f o w hW8,
      assembled_big_any W _ o w hW8]
    apply Finset.sum_congr rfl
    intro i _
    simp only [byteAt, getD_append_zeros]
  · rw [List.length_append, List.length_replicate]; omega

theorem getNumeric_big_zero_fill_witness :
    (32 ≤ 32 ∧ ((4 : Nat) = 1 ∨ (4 : Nat) = 2 ∨ (4 : Nat) = 4)
        ∧ (FILE.mk [0x11, 0x22, 0x33] 0).data.length < 1 + 4)
      ∧ ((getNumeric 32 ⟨[0x11, 0x22, 0x33], 0⟩ ((1 : Nat) : Int) 4 UNSIGNED BIG).1
          = ∑ i in Finset.range 4,
              (if 1 + i < (FILE.mk [0x11, 0x22, 0x33] 0).data.length
                then ((FILE.mk [0x11, 0x22, 0x33] 0).data.getD (1 + i) 0).toNat else 0)
                * 256 ^ (4 - 1 - i)
        ∧ (getNumeric 32 ⟨[0x11, 0x22, 0x33], 0⟩ ((1 : Nat) : Int) 4 UNSIGNED BIG).1
          = (getNumeric 32 ⟨(FILE.mk [0x11, 0x22, 0x33] 0).data
                ++ List.replicate (1 + 4 - (FILE.mk [0x11, 0x22, 0x33] 0).data.length) 0,
              (FILE.mk [0x11, 0x22, 0x33] 0).pos⟩ ((1 : Nat) : Int) 4 UNSIGNED BIG).1
        ∧ ((FILE.mk [0x11, 0x22, 0x33] 0).data
            ++ List.replicate (1 + 4 - (FILE.mk [0x11, 0x22, 0x33] 0).data.length) 0).length
          = 1 + 4)
      ∧ (getNumeric 32 ⟨[0x11, 0x22, 0x33], 0⟩ ((1 : Nat) : Int) 4 UNSIGNED BIG).1
          = 0x22330000 :=
  ⟨by decide, getNumeric_big_zero_fill 32 ⟨[0x11, 0x22, 0x33], 0⟩ 1 4
    (by decide) (by decide) (by decide), by decide⟩

theorem fseek_back_fail (F : List UInt8) : fseek ⟨F, 0⟩ (-1) Whence.SEEK_CUR = ⟨F, 0⟩ := by
  simp [fseek]

theorem littleStep_front (buffer : Buffer) (F : List UInt8) (i : Nat) (h : 0 < F.length) :
    littleStep (buffer, ⟨F, 0⟩) i = (writeAt buffer i (F.getD 0 0), ⟨F, 0⟩) := by
  have hb : fseek ⟨F, 0 + 1⟩ (-1) Whence.SEEK_CUR = ⟨F, 0⟩ := fseek_back F (0 + 1) (by omega)
  simp only [littleStep, fseek_back_fail, fread_avail buffer i F 0 h, hb]

/-- The `LITTLE` loop started at a position `p` of a non-empty file, with no bound
on the number of passes: the first `p` passes walk back to the start of the
file, and every later pass finds its seek refused at position 0 and reads
byte 0 again. -/
theorem foldl_littleStep_any (buffer : Buffer) (F : List UInt8) (p : Nat) (hp : p ≤ F.length)
    (hne : 0 < F.length) :
    ∀ k, (List.range k).foldl littleStep (buffer, ⟨F, p⟩)
        = (fun j => if j < k then (if j < p then F.getD (p - 1 - j) 0 else F.getD 0 0)
              else buffer j, ⟨F, p - k⟩) := by
  intro k
  induction k with
  | zero => simp
  | succ k ih =>
    rw [List.range_succ, List.foldl_append, ih]
    simp only [List.foldl_cons, List.foldl_nil]
    by_cases hk : k < p
    · rw [littleStep_avail _ F (p - k) k (by omega) (by omega)]
      have e1 : p - k - 1 = p - (k + 1) := by omega
      have e2 : p - 1 - k = p - (k + 1) := by omega
      refine Prod.ext ?_ (by simp [e1])
      funext j
      simp only [writeAt]
      by_cases hj : j = k
      · subst hj; simp [e1, e2, hk]
      · by_cases hlt : j < k
        · have : j < k + 1 := by omega
          simp [hj, hlt, this]
        · have : ¬ j < k + 1 := by omega
          simp [hj, hlt, this]
    · have e0 : p - k = 0 := by omega
      have e1 : p - (k + 1) = 0 := by omega
      rw [e0, e1, littleStep_front _ F k hne]
      refine Prod.ext ?_ rfl
      funext j
      simp only [writeAt]
      by_cases hj : j = k
      · subst hj; simp [hk]
      · by_cases hlt : j < k
        · have : j < k + 1 := by omega
          simp [hj, hlt, this]
        · have : ¬ j < k + 1 := by omega
          simp [hj, hlt, this]

/-! ## Further claims about `getNumeric` -/

/-- C14. Little-endian reads that run off the front of the file are not zero-filled:
with a seek to a negative position failing and leaving the indicator where it
is, for a non-empty file of length `L`, an offset `o ≤ L` and `p = L - o < w`, the
`i`-th byte the `LITTLE` branch fetches is `F[p - 1 - i]` for `i < p` and `F[0]`
for every `p ≤ i < w`; in particular the last byte fetched is `F[0]`. -/
theorem fetch_little_front (f : FILE) (o w : Nat) (hne : f.data ≠ [])
    (ho : o ≤ f.data.length) (hp : f.data.length - o < w) :
    (∀ i, i < w →
        (fetch f (o : Int) w LITTLE (fun _ => 0)).1 i
          = if i < f.data.length - o then f.data.getD (f.data.length - o - 1 - i) 0
            else f.data.getD 0 0)
      ∧ (fetch f (o : Int) w LITTLE (fun _ => 0)).1 (w - 1) = f.data.getD 0 0 := by
  obtain ⟨F, pos⟩ := f
  have hlen : 0 < F.length := List.length_pos.mpr hne
  have hfetch : (fetch ⟨F, pos⟩ (o : Int) w LITTLE (fun _ => 0)).1
      = fun j => if j < w then
          (if j < F.length - o then F.getD (F.length - o - 1 - j) 0 else F.getD 0 0)
        else 0 := by
    simp only [fetch, if_true]
    rw [fseek_end F pos o ho,
      foldl_littleStep_any _ F (F.length - o) (by omega) hlen w]
  simp only at hp
  constructor
  · intro i hi
    rw [hfetch]
    simp only [hi, if_true]
  · rw [hfetch]
    have h1 : w - 1 < w := by omega
    have h2 : ¬ (w - 1 < F.length - o) := by omega
    simp only [h1, h2, if_true, if_false]

theorem fetch_little_front_witness :
    ((FILE.mk [0x11, 0x22, 0x33] 0).data ≠ [] ∧ 1 ≤ (FILE.mk [0x11, 0x22, 0x33] 0).data.length
        ∧ (FILE.mk [0x11, 0x22, 0x33] 0).data.length - 1 < 4)
      ∧ ((∀ i, i < 4 →
          (fetch ⟨[0x11, 0x22, 0x33], 0⟩ ((1 : Nat) : Int) 4 LITTLE (fun _ => 0)).1 i
            = if i < (FILE.mk [0x11, 0x22, 0x33] 0).data.length - 1
              then (FILE.mk [0x11, 0x22, 0x33] 0).data.getD
                ((FILE.mk [0x11, 0x22, 0x33] 0).data.length - 1 - 1 - i) 0
              else (FILE.mk [0x11, 0x22, 0x33] 0).data.getD 0 0)
        ∧ (fetch ⟨[0x11, 0x22, 0x33], 0⟩ ((1 : Nat) : Int) 4 LITTLE (fun _ => 0)).1 (4 - 1)
            = (FILE.mk [0x11, 0x22, 0x33] 0).data.getD 0 0)
      ∧ (List.range 4).map
          (fetch ⟨[0x11, 0x22, 0x33], 0⟩ ((1 : Nat) : Int) 4 LITTLE (fun _ => 0)).1
          = [0x22, 0x11, 0x11, 0x11]
      ∧ (getNumeric 32 ⟨[0x11, 0x22, 0x33], 0⟩ ((1 : Nat) : Int) 4 UNSIGNED LITTLE).1
          = 0x22111111 :=
  ⟨by decide, fetch_little_front ⟨[0x11, 0x22, 0x33], 0⟩ 1 4 (by decide) (by decide)
    (by decide), by decide, by decide⟩

/-- C12 as stated fails for little-endian reads: on the file `01 02 03 04 05` with
offset 3 and width 2 the resolved position is `p = 5 - 3 = 2`; the bytes fetched
are `F[1], F[0] = 02 01`, not the bytes `F[2], F[3] = 03 04` at `p, p + 1`, and the
value is `0x0201`, not `0x0304`. -/
theorem fetch_little_not_forward :
    ¬ (∀ i, i < 2 →
        (fetch ⟨[1, 2, 3, 4, 5], 0⟩ 3 2 LITTLE (fun _ => 0)).1 i
          = (FILE.mk [1, 2, 3, 4, 5] 0).data.getD ((5 - 3) + i) 0)
      ∧ (List.range 2).map (fetch ⟨[1, 2, 3, 4, 5], 0⟩ 3 2 LITTLE (fun _ => 0)).1 = [2, 1]
      ∧ (getNumeric 32 ⟨[1, 2, 3, 4, 5], 0⟩ 3 2 UNSIGNED LITTLE).1 = 0x0201
      ∧ (∑ i in Finset.range 2, byteAt ⟨[1, 2, 3, 4, 5], 0⟩ ((5 - 3) + i) * 256 ^ (2 - 1 - i))
          = 0x0304 := by
  decide

/-- C12, amended. For a read inside the file and widths 1, 2 and 4: in the `BIG`
branch the bytes fetched are the file bytes at `p, p + 1, ..., p + w - 1` in that
order, with `p` the offset; in the `LITTLE` branch they are the file bytes at
`p - 1, p - 2, ..., p - w` in that order, with `p = L - o`, that is, fetched backward
from the resolved position. In both, whatever the signedness, the value
modulo `2 ^ (8 * w)` has the first fetched byte as its most significant byte
and each next byte 8 bits lower. -/
theorem getNumeric_fetch_order (W : Nat) (f : FILE) (o w : Nat) (t : Int) (hW : 32 ≤ W)
    (hw : w = 1 ∨ w = 2 ∨ w = 4) (h : o + w ≤ f.data.length) :
    (∀ i, i < w → (fetch f (o : Int) w BIG (fun _ => 0)).1 i = f.data.getD (o + i) 0)
      ∧ (getNumeric W f (o : Int) w t BIG).1 % 2 ^ (8 * w)
          = ∑ i in Finset.range w,
              ((fetch f (o : Int) w BIG (fun _ => 0)).1 i).toNat * 256 ^ (w - 1 - i)
      ∧ (∀ i, i < w →
          (fetch f (o : Int) w LITTLE (fun _ => 0)).1 i
            = f.data.getD (f.data.length - o - 1 - i) 0)
      ∧ (getNumeric W f (o : Int) w t LITTLE).1 % 2 ^ (8 * w)
          = ∑ i in Finset.range w,
              ((fetch f (o : Int) w LITTLE (fun _ => 0)).1 i).toNat * 256 ^ (w - 1 - i) := by
  have hW8 : 8 * w ≤ W := by omega
  refine ⟨?_, ?_, ?_, ?_⟩
  · intro i hi
    rw [fetch_big f o w _ h]
    simp only [hi, if_true]
  · rw [getNumeric_fst, signAdjust_mod W w _ t hw hW (assemble_lt W _ w hW8),
      assemble_eq W _ w hW8]
  · intro i hi
    rw [fetch_little f o w _ h]
    simp only [hi, if_true]
  · rw [getNumeric_fst, signAdjust_mod W w _ t hw hW (assemble_lt W _ w hW8),
      assemble_eq W _ w hW8]

theorem getNumeric_fetch_order_witness :
    (32 ≤ 32 ∧ ((2 : Nat) = 1 ∨ (2 : Nat) = 2 ∨ (2 : Nat) = 4)
        ∧ 3 + 2 ≤ (FILE.mk [1, 2, 3, 4, 5] 0).data.length)
      ∧ ((∀ i, i < 2 →
          (fetch ⟨[1, 2, 3, 4, 5], 0⟩ ((3 : Nat) : Int) 2 BIG (fun _ => 0)).1 i
            = (FILE.mk [1, 2, 3, 4, 5] 0).data.getD (3 + i) 0)
        ∧ (getNumeric 32 ⟨[1, 2, 3, 4, 5], 0⟩ ((3 : Nat) : Int) 2 SIGNED BIG).1 % 2 ^ (8 * 2)
            = ∑ i in Finset.range 2,
                ((fetch ⟨[1, 2, 3, 4, 5], 0⟩ ((3 : Nat) : Int) 2 BIG (fun _ => 0)).1 i).toNat
                  * 256 ^ (2 - 1 - i)
        ∧ (∀ i, i < 2 →
            (fetch ⟨[1, 2, 3, 4, 5], 0⟩ ((3 : Nat) : Int) 2 LITTLE (fun _ => 0)).1 i
              = (FILE.mk [1, 2, 3, 4, 5] 0).data.getD
                  ((FILE.mk [1, 2, 3, 4, 5] 0).data.length - 3 - 1 - i) 0)
        ∧ (getNumeric 32 ⟨[1, 2, 3, 4, 5], 0⟩ ((3 : Nat) : Int) 2 SIGNED LITTLE).1
              % 2 ^ (8 * 2)
            = ∑ i in Finset.range 2,
                ((fetch ⟨[1, 2, 3, 4, 5], 0⟩ ((3 : Nat) : Int) 2 LITTLE (fun _ => 0)).1 i).toNat
                  * 256 ^ (2 - 1 - i))
      ∧ (List.range 2).map (fetch ⟨[1, 2, 3, 4, 5], 0⟩ ((3 : Nat) : Int) 2 BIG (fun _ => 0)).1
          = [4, 5]
      ∧ (List.range 2).map
          (fetch ⟨[1, 2, 3, 4, 5], 0⟩ ((3 : Nat) : Int) 2 LITTLE (fun _ => 0)).1 = [2, 1] :=
  ⟨by decide, getNumeric_fetch_order 32 ⟨[1, 2, 3, 4, 5], 0⟩ 3 2 SIGNED
    (by decide) (by decide) (by decide), by decide, by decide⟩

/-! ## The cursor -/

theorem fseek_data (f : FILE) (off : Int) (wh : Whence) : (fseek f off wh).data = f.data := by
  unfold fseek
  simp only
  split <;> rfl

theorem fread_data (buffer : Buffer) (i : Nat) (f : FILE) :
    (fread buffer i f).2.2.data = f.data := by
  unfold fread
  split <;> rfl

theorem littleStep_data (s : Buffer × FILE) (i : Nat) : (littleStep s i).2.data = s.2.data := by
  simp only [littleStep, fseek_data, fread_data]

theorem bigStep_data (s : Buffer × FILE) (i : Nat) : (bigStep s i).2.data = s.2.data := by
  simp only [bigStep, fread_data]

theorem foldl_data (step : Buffer × FILE → Nat → Buffer × FILE)
    (hstep : ∀ s i, (step s i).2.data = s.2.data) :
    ∀ (l : List Nat) (s : Buffer × FILE), (l.foldl step s).2.data = s.2.data := by
  intro l
  induction l with
  | nil => intro s; rfl
  | cons a l ih => intro s; rw [List.foldl_cons, ih, hstep]

/-- A call of `getNumeric` moves the position indicator at most: the bytes of the
file are as before. -/
theorem getNumeric_data (W : Nat) (f : FILE) (off : Int) (w : Nat) (t e : Int) :
    (getNumeric W f off w t e).2.data = f.data := by
  simp only [getNumeric, fetch]
  split
  · rw [foldl_data littleStep littleStep_data]; exact fseek_data _ _ _
  · split
    · rw [foldl_data bigStep bigStep_data]; exact fseek_data _ _ _
    · rfl

theorem dumpLoop_data : ∀ (fuel : Nat) (s s' : DumpState),
    dumpLoop fuel s = some s' → s'.fin.data = s.fin.data := by
  intro fuel
  induction fuel with
  | zero => intro s s' h; simp [dumpLoop] at h
  | succ fuel ih =>
    intro s s' h
    simp only [dumpLoop] at h
    split at h
    · split at h
      · have := ih _ _ h
        simpa [callPrintLine, fread_data] using this
      · have := ih _ _ h
        simpa [fread_data] using this
    · simp only [Option.some.injEq] at h
      subst h
      exact fread_data _ _ _

/-- A call of `binaryDumpAsASCII` leaves the bytes of the file as they were. -/
theorem binaryDump_data (fuel : Nat) (f : FILE) (buffer : Buffer) (s : DumpState)
    (h : binaryDumpAsASCII fuel f buffer = some s) : s.fin.data = f.data := by
  simp only [binaryDumpAsASCII] at h
  split at h
  · simp at h
  · rename_i s0 hs0
    have h0 := dumpLoop_data _ _ _ hs0
    simp only [fseek_data] at h0
    split at h
    · simp only [Option.some.injEq] at h
      subst h
      simpa [callPrintLine, fread_data] using h0
    · simp only [Option.some.injEq] at h
      subst h
      simpa [fread_data] using h0

/-- Inside the file, the value depends on the bytes of the file only, not on the
position indicator. -/
theorem getNumeric_same_data (W : Nat) (f g : FILE) (o w : Nat) (t e : Int)
    (hd : g.data = f.data) (h : o + w ≤ f.data.length) :
    (getNumeric W g (o : Int) w t e).1 = (getNumeric W f (o : Int) w t e).1 := by
  have hg : o + w ≤ g.data.length := by rw [hd]; exact h
  rw [getNumeric_fst, getNumeric_fst]
  by_cases hl : e = LITTLE
  · subst hl
    rw [fetch_little f o w _ h, fetch_little g o w _ hg, hd]
  · by_cases hb : e = BIG
    · subst hb
      rw [fetch_big f o w _ h, fetch_big g o w _ hg, hd]
    · simp only [fetch, hl, hb, if_false]

/-- C13. Repeated calls on one handle are independent: for a read inside the file,
the value `getNumeric` returns is the same for every position the indicator
had before the call; so it is the same on the handle as an earlier
`getNumeric` call (with any arguments) or an earlier `binaryDumpAsASCII` call
left it. -/
theorem getNumeric_cursor_independent (W : Nat) (f : FILE) (o w : Nat) (t e : Int)
    (h : o + w ≤ f.data.length) :
    (∀ p q : Nat,
        (getNumeric W ⟨f.data, p⟩ (o : Int) w t e).1
          = (getNumeric W ⟨f.data, q⟩ (o : Int) w t e).1)
      ∧ (∀ (o' : Int) (w' : Nat) (t' e' : Int),
        (getNumeric W (getNumeric W f o' w' t' e').2 (o : Int) w t e).1
          = (getNumeric W f (o : Int) w t e).1)
      ∧ (∀ (fuel : Nat) (buffer : Buffer) (s : DumpState),
        binaryDumpAsASCII fuel f buffer = some s →
          (getNumeric W s.fin (o : Int) w t e).1 = (getNumeric W f (o : Int) w t e).1) := by
  refine ⟨?_, ?_, ?_⟩
  · intro p q
    rw [getNumeric_same_data W f ⟨f.data, p⟩ o w t e rfl h,
      getNumeric_same_data W f ⟨f.data, q⟩ o w t e rfl h]
  · intro o' w' t' e'
    exact getNumeric_same_data W f _ o w t e (getNumeric_data W f o' w' t' e') h
  · intro fuel buffer s hs
    exact getNumeric_same_data W f _ o w t e (binaryDump_data fuel f buffer s hs) h

theorem getNumeric_cursor_independent_witness :
    (1 + 2 ≤ file20.data.length)
      ∧ ((∀ p q : Nat,
          (getNumeric 32 ⟨file20.data, p⟩ ((1 : Nat) : Int) 2 SIGNED LITTLE).1
            = (getNumeric 32 ⟨file20.data, q⟩ ((1 : Nat) : Int) 2 SIGNED LITTLE).1)
        ∧ (∀ (o' : Int) (w' : Nat) (t' e' : Int),
          (getNumeric 32 (getNumeric 32 file20 o' w' t' e').2 ((1 : Nat) : Int) 2
              SIGNED LITTLE).1
            = (getNumeric 32 file20 ((1 : Nat) : Int) 2 SIGNED LITTLE).1)
        ∧ (∀ (fuel : Nat) (buffer : Buffer) (s : DumpState),
          binaryDumpAsASCII fuel file20 buffer = some s →
            (getNumeric 32 s.fin ((1 : Nat) : Int) 2 SIGNED LITTLE).1
              = (getNumeric 32 file20 ((1 : Nat) : Int) 2 SIGNED LITTLE).1))
      ∧ (getNumeric 32 (getNumeric 32 file20 0 4 SIGNED BIG).2 ((1 : Nat) : Int) 2
            SIGNED LITTLE).1 = 0x5352
      ∧ (getNumeric 32 file20 ((1 : Nat) : Int) 2 SIGNED LITTLE).1 = 0x5352 :=
  ⟨by decide, getNumeric_cursor_independent 32 file20 1 2 SIGNED LITTLE (by decide),
    by decide, by decide⟩

/-- C15. The decoded value always fits the requested width: for widths 1, 2 and 4
and every file, offset and endianness, the `UNSIGNED` result is below
`2 ^ (8 * w)`, and the `SIGNED` result, read as a signed integer, lies in
`[-2 ^ (8 * w - 1), 2 ^ (8 * w - 1) - 1]` and is congruent modulo `2 ^ (8 * w)` to the
`UNSIGNED` result for the same arguments. -/
theorem getNumeric_fits (W : Nat) (f : FILE) (off : Int) (w : Nat) (e : Int) (hW : 32 ≤ W)
    (hw : w = 1 ∨ w = 2 ∨ w = 4) :
    (getNumeric W f off w UNSIGNED e).1 ≤ 2 ^ (8 * w) - 1
      ∧ -(2 : Int) ^ (8 * w - 1) ≤ toSigned W (getNumeric W f off w SIGNED e).1
      ∧ toSigned W (getNumeric W f off w SIGNED e).1 ≤ (2 : Int) ^ (8 * w - 1) - 1
      ∧ toSigned W (getNumeric W f off w SIGNED e).1 % (2 : Int) ^ (8 * w)
          = ((getNumeric W f off w UNSIGNED e).1 : Int) % (2 : Int) ^ (8 * w) := by
  have hW8 : 8 * w ≤ W := by omega
  have hu := assemble_lt W (fetch f off w e (fun _ => 0)).1 w hW8
  have hs := toSigned_signAdjust W w _ hw hW hu
  rw [getNumeric_fst, getNumeric_fst, signAdjust_other W w UNSIGNED _ (by decide), hs]
  generalize assemble W (fetch f off w e (fun _ => 0)).1 w = u at hu ⊢
  have hw2 : 2 ^ (8 * w) = 2 * 2 ^ (8 * w - 1) := by
    rw [← pow_succ']; congr 1; omega
  have hw2i : (2 : Int) ^ (8 * w) = 2 * (2 : Int) ^ (8 * w - 1) := by
    rw [← pow_succ']; congr 1; omega
  have hui : (u : Int) < (2 : Int) ^ (8 * w) := by exact_mod_cast hu
  have hpos : (0 : Int) ≤ (u : Int) := Int.ofNat_nonneg u
  refine ⟨by omega, ?_, ?_, ?_⟩
  · by_cases hlt : u < 2 ^ (8 * w - 1)
    · rw [if_pos hlt]
      have : (0 : Int) < (2 : Int) ^ (8 * w - 1) := by positivity
      omega
    · rw [if_neg hlt]
      have : (2 : Int) ^ (8 * w - 1) ≤ (u : Int) := by
        have : 2 ^ (8 * w - 1) ≤ u := by omega
        exact_mod_cast this
      omega
  · by_cases hlt : u < 2 ^ (8 * w - 1)
    · rw [if_pos hlt]
      have : (u : Int) < (2 : Int) ^ (8 * w - 1) := by exact_mod_cast hlt
      omega
    · rw [if_neg hlt]
      omega
  · by_cases hlt : u < 2 ^ (8 * w - 1)
    · rw [if_pos hlt]
    · rw [if_neg hlt]
      simp

theorem getNumeric_fits_witness :
    (32 ≤ 64 ∧ ((2 : Nat) = 1 ∨ (2 : Nat) = 2 ∨ (2 : Nat) = 4))
      ∧ ((getNumeric 64 ⟨[0x12, 0xFF, 0x80], 0⟩ 0 2 UNSIGNED LITTLE).1 ≤ 2 ^ (8 * 2) - 1
        ∧ -(2 : Int) ^ (8 * 2 - 1)
            ≤ toSigned 64 (getNumeric 64 ⟨[0x12, 0xFF, 0x80], 0⟩ 0 2 SIGNED LITTLE).1
        ∧ toSigned 64 (getNumeric 64 ⟨[0x12, 0xFF, 0x80], 0⟩ 0 2 SIGNED LITTLE).1
            ≤ (2 : Int) ^ (8 * 2 - 1) - 1
        ∧ toSigned 64 (getNumeric 64 ⟨[0x12, 0xFF, 0x80], 0⟩ 0 2 SIGNED LITTLE).1
              % (2 : Int) ^ (8 * 2)
            = ((getNumeric 64 ⟨[0x12, 0xFF, 0x80], 0⟩ 0 2 UNSIGNED LITTLE).1 : Int)
              % (2 : Int) ^ (8 * 2))
      ∧ (getNumeric 64 ⟨[0x12, 0xFF, 0x80], 0⟩ 0 2 UNSIGNED LITTLE).1 = 0x80FF
      ∧ toSigned 64 (getNumeric 64 ⟨[0x12, 0xFF, 0x80], 0⟩ 0 2 SIGNED LITTLE).1 = -32513 :=
  ⟨by decide, getNumeric_fits 64 ⟨[0x12, 0xFF, 0x80], 0⟩ 0 2 LITTLE (by decide) (by decide),
    by decide, by decide⟩

theorem getD_reverse (F : List UInt8) (j : Nat) (h : j < F.length) :
    F.reverse.getD j 0 = F.getD (F.length - 1 - j) 0 := by
  rw [List.getD_eq_getElem?_getD, List.getD_eq_getElem?_getD, List.getElem?_reverse h]

/-- C16. Little-endian reading is big-endian reading of the reversed file: for a
read inside the file and either signedness, `getNumeric(F, o, w, t, LITTLE)` and
`getNumeric(reverse F, o, w, t, BIG)` return the same value. -/
theorem getNumeric_little_eq_big_reverse (W : Nat) (f : FILE) (o w : Nat) (t : Int)
    (h : o + w ≤ f.data.length) :
    (getNumeric W f (o : Int) w t LITTLE).1
      = (getNumeric W ⟨f.data.reverse, f.pos⟩ (o : Int) w t BIG).1 := by
  have hr : o + w ≤ (FILE.mk f.data.reverse f.pos).data.length := by
    simp only [List.length_reverse]; exact h
  rw [getNumeric_fst, getNumeric_fst, fetch_little f o w _ h, fetch_big _ o w _ hr]
  congr 2
  funext j
  by_cases hj : j < w
  · have e : f.data.length - 1 - (o + j) = f.data.length - o - 1 - j := by omega
    simp only [hj, if_true]
    rw [getD_reverse f.data (o + j) (by omega), e]
  · simp only [hj, if_false]

theorem getNumeric_little_eq_big_reverse_witness :
    (1 + 2 ≤ (FILE.mk [0x11, 0x22, 0x33, 0x44, 0x55] 0).data.length)
      ∧ (getNumeric 32 ⟨[0x11, 0x22, 0x33, 0x44, 0x55], 0⟩ ((1 : Nat) : Int) 2 SIGNED LITTLE).1
          = (getNumeric 32 ⟨(FILE.mk [0x11, 0x22, 0x33, 0x44, 0x55] 0).data.reverse,
              (FILE.mk [0x11, 0x22, 0x33, 0x44, 0x55] 0).pos⟩ ((1 : Nat) : Int) 2
              SIGNED BIG).1
      ∧ (getNumeric 32 ⟨[0x11, 0x22, 0x33, 0x44, 0x55], 0⟩ ((1 : Nat) : Int) 2 SIGNED LITTLE).1
          = 0x4433
      ∧ (getNumeric 32 ⟨[0x55, 0x44, 0x33, 0x22, 0x11], 0⟩ ((1 : Nat) : Int) 2 SIGNED BIG).1
          = 0x4433 :=
  ⟨by decide, getNumeric_little_eq_big_reverse 32 ⟨[0x11, 0x22, 0x33, 0x44, 0x55], 0⟩ 1 2
    SIGNED (by decide), by decide, by decide⟩

/-! ## Line structure -/

theorem hexDigit_printable : ∀ d < 16, 32 ≤ (hexDigit d).toNat ∧ (hexDigit d).toNat ≤ 126 := by
  decide

theorem asciiChar_printable (b : UInt8) :
    32 ≤ (asciiChar b).toNat ∧ (asciiChar b).toNat ≤ 126 := by
  by_cases h : 32 ≤ b.toNat ∧ b.toNat ≤ 126
  · simp only [asciiChar, h, and_self, if_true]
    rw [asciiCode_printable _ (byte_lt b) h]
    exact h
  · simp only [asciiChar, h, if_false]
    decide

theorem leftPart_printable (buffer : Buffer) (n : Nat) (c : Char)
    (hc : c ∈ (List.range n).flatMap (fun i => printfHex (buffer i))
      ++ List.replicate (3 * (16 - n)) ' ') :
    32 ≤ c.toNat ∧ c.toNat ≤ 126 := by
  rcases List.mem_append.mp hc with h1 | h2
  · obtain ⟨i, _, hi⟩ := List.mem_flatMap.mp h1
    have hb := byte_lt (buffer i)
    simp only [printfHex, List.mem_cons, List.mem_singleton, List.not_mem_nil, or_false] at hi
    rcases hi with h | h | h
    · rw [h]; exact hexDigit_printable _ (by omega)
    · rw [h]; exact hexDigit_printable _ (by omega)
    · rw [h]; decide
  · rw [List.eq_of_mem_replicate h2]; decide

theorem asciiColumn_printable (buffer : Buffer) (n : Nat) (c : Char)
    (hc : c ∈ (List.range n).flatMap (fun i => printfAscii (buffer i))) :
    32 ≤ c.toNat ∧ c.toNat ≤ 126 := by
  obtain ⟨i, _, hi⟩ := List.mem_flatMap.mp hc
  rw [printfAscii_eq] at hi
  rw [List.mem_singleton.mp hi]
  exact asciiChar_printable (buffer i)

theorem count_control (l : List Char) (x : Char) (hx : x.toNat < 32)
    (h : ∀ c, c ∈ l → 32 ≤ c.toNat ∧ c.toNat ≤ 126) : l.count x = 0 :=
  List.count_eq_zero.mpr (fun hm => by have := (h x hm).1; omega)

/-- A rendered line holds one tab and one newline. -/
theorem printLine_count (buffer : Buffer) (n : Nat) (hn : n ≤ 16) :
    (printLine buffer n).count '\t' = 1 ∧ (printLine buffer n).count '\n' = 1 := by
  rw [printLine_shape buffer n hn]
  have hL := leftPart_printable buffer n
  have hA := asciiColumn_printable buffer n
  constructor
  · rw [List.count_append, count_control _ '\t' (by decide) hL, List.count_cons,
      List.count_append, count_control _ '\t' (by decide) hA]
    decide
  · rw [List.count_append, count_control _ '\n' (by decide) hL, List.count_cons,
      List.count_append, count_control _ '\n' (by decide) hA]
    decide

theorem count_flatMap_range (g : Nat → List Char) (x : Char) (hg : ∀ i, (g i).count x = 1) :
    ∀ m, ((List.range m).flatMap g).count x = m := by
  intro m
  induction m with
  | zero => simp
  | succ m ih => rw [flatMap_range_succ, List.count_append, ih, hg]

/-- C17. File data cannot break the line structure of the dump. For a window of
`n ≤ 16` bytes with arbitrary values, the line `printLine` writes has `50 + n`
characters, a tab at index 48, a newline as its last character, and every
other character has a code in `[32, 126]`; so it holds exactly one tab and
exactly one newline. Hence, with enough fuel, the number of newline
characters `binaryDumpAsASCII` writes is the number of `printLine` calls it made,
whatever bytes the file holds. -/
theorem dump_line_structure :
    (∀ (buffer : Buffer) (n : Nat), n ≤ 16 →
        (printLine buffer n).length = 50 + n
          ∧ (printLine buffer n)[48]? = some '\t'
          ∧ (printLine buffer n)[49 + n]? = some '\n'
          ∧ (∀ k, k < 50 + n → k ≠ 48 → k ≠ 49 + n →
              ∃ c : Char, (printLine buffer n)[k]? = some c ∧ 32 ≤ c.toNat ∧ c.toNat ≤ 126)
          ∧ (printLine buffer n).count '\t' = 1
          ∧ (printLine buffer n).count '\n' = 1)
      ∧ (∀ (fuel : Nat) (f : FILE) (buffer : Buffer), f.data.length < fuel →
        ∃ s, binaryDumpAsASCII fuel f buffer = some s
          ∧ s.out.count '\n' = s.calls.length) := by
  constructor
  · intro buffer n hn
    have hshape := printLine_shape buffer n hn
    have hlen := leftPart_length buffer n hn
    have halen := asciiColumn_length buffer n
    have hcount := printLine_count buffer n hn
    refine ⟨?_, ?_, ?_, ?_, hcount.1, hcount.2⟩
    · rw [hshape, List.length_append, hlen, List.length_cons, List.length_append, halen]
      simp; omega
    · rw [hshape, List.getElem?_append_right (by omega), hlen]; simp
    · rw [hshape, List.getElem?_append_right (by omega), hlen]
      have e : 49 + n - 48 = n + 1 := by omega
      rw [e, List.getElem?_cons_succ, List.getElem?_append_right (by omega), halen]
      simp
    · intro k hk h48 hlast
      rw [hshape]
      by_cases hleft : k < 48
      · have hk' : k < ((List.range n).flatMap (fun i => printfHex (buffer i))
            ++ List.replicate (3 * (16 - n)) ' ').length := by omega
        rw [List.getElem?_append_left hk', List.getElem?_eq_getElem hk']
        exact ⟨_, rfl, leftPart_printable buffer n _ (List.getElem_mem _)⟩
      · obtain ⟨j, rfl⟩ : ∃ j, k = 49 + j := ⟨k - 49, by omega⟩
        have hj : j < ((List.range n).flatMap (fun i => printfAscii (buffer i))).length := by
          omega
        have e : 49 + j - 48 = j + 1 := by omega
        rw [List.getElem?_append_right (by omega), hlen, e, List.getElem?_cons_succ,
          List.getElem?_append_left hj, List.getElem?_eq_getElem hj]
        exact ⟨_, rfl, asciiColumn_printable buffer n _ (List.getElem_mem _)⟩
  · intro fuel f buffer hfuel
    obtain ⟨s, hs, hc, ho⟩ := binaryDump_run fuel f buffer hfuel
    refine ⟨s, hs, ?_⟩
    have hr : f.data.length % 16 ≤ 16 := by
      have := Nat.mod_lt f.data.length (show 0 < 16 by norm_num)
      omega
    rw [ho, hc, List.count_append,
      count_flatMap_range _ '\n' (fun i => (printLine_count _ 16 (le_refl 16)).2),
      (printLine_count _ _ hr).2]
    simp

theorem dump_line_structure_witness :
    ((3 ≤ 16 ∧ fileCtl.data.length < 19)
      ∧ ((printLine (fileWindow fileCtl.data 9) 3).length = 50 + 3
        ∧ (printLine (fileWindow fileCtl.data 9) 3)[48]? = some '\t'
        ∧ (printLine (fileWindow fileCtl.data 9) 3)[49 + 3]? = some '\n'
        ∧ (∀ k, k < 50 + 3 → k ≠ 48 → k ≠ 49 + 3 →
            ∃ c : Char, (printLine (fileWindow fileCtl.data 9) 3)[k]? = some c
              ∧ 32 ≤ c.toNat ∧ c.toNat ≤ 126)
        ∧ (printLine (fileWindow fileCtl.data 9) 3).count '\t' = 1
        ∧ (printLine (fileWindow fileCtl.data 9) 3).count '\n' = 1)
      ∧ (∃ s, binaryDumpAsASCII 19 fileCtl (fun _ => 0) = some s
        ∧ s.out.count '\n' = s.calls.length))
    ∧ (binaryDumpAsASCII 19 fileCtl (fun _ => 0)).map
        (fun s => (s.calls.length, s.out.count '\n', s.out.count '\t')) = some (2, 2, 2) :=
  ⟨⟨by decide, dump_line_structure.1 (fileWindow fileCtl.data 9) 3 (by decide),
      dump_line_structure.2 19 fileCtl (fun _ => 0) (by decide)⟩, by decide⟩

end ByteRead
